import Mathlib

/-!
Verification of the smart-indentation and structural-scanning engine of a
source-code editor widget (src/source.cc).  The buffer is modelled either as
a flat list of characters with `Gtk::TextIter`s as character offsets, or as
a list of lines, whichever is closer to how the scrutinised routine walks
the text.  The lexical-context oracle (`iter_has_context_class`) supplied by
the external syntax highlighter is an explicit function parameter.

All recursive definitions use structural recursion on an explicit bound so
that they evaluate by kernel reduction on concrete inputs.
-/

set_option maxHeartbeats 1000000

namespace Jucipp

/-- Lexical context of a buffer position, as reported by the external syntax
highlighter: the source queries `iter_has_context_class(iter, "comment")` and
`iter_has_context_class(iter, "string")`; `plain` means neither class holds. -/
inductive Ctx where
  | plain
  | comment
  | str
  deriving DecidableEq

/-- The character a `Gtk::TextIter` at character offset `p` dereferences to:
the buffer character at `p`, or NUL when `p` is at (or past) the buffer end,
matching `gtk_text_iter_get_char` returning 0 at the end iterator. -/
def charAt (t : List Char) (p : Nat) : Char := t.getD p (Char.ofNat 0)

/-- Whitespace in the sense used throughout source.cc: space or tab. -/
def isWS (c : Char) : Bool := c = ' ' || c = '\t'

/-- The `Gtk::TextIter::starts_line` test at offset `p`: offset 0, or the
previous character is a newline.  Note `p - 1` is truncated subtraction, which
coincides with a backward iterator stuck at the buffer start. -/
def startsLine (t : List Char) (p : Nat) : Prop := p = 0 ∨ charAt t (p - 1) = '\n'

instance (t : List Char) (p : Nat) : Decidable (startsLine t p) := by
  unfold startsLine; infer_instance

/-- The `Gtk::TextIter::ends_line` test at offset `p`: the buffer end, or the
character at `p` is a newline. -/
def endsLine (t : List Char) (p : Nat) : Prop := t.length ≤ p ∨ charAt t p = '\n'

instance (t : List Char) (p : Nat) : Decidable (endsLine t p) := by
  unfold endsLine; infer_instance

/-! ## `place_cursor_at_line_offset` (C10) -/

/-- `Source::View::place_cursor_at_line_offset` (source.cc 820-827): the pair
(line, offset) finally handed to `get_iter_at_line_offset`.  `line` is clamped
by `std::min(line, line_count - 1)` and then raised to 0 if negative; `offset`
is clamped by `std::min(offset, end_iter.get_line_offset())`, where
`lineLen l` abstracts the character length of line `l`. -/
def place_cursor_at_line_offset (lineCount : Nat) (lineLen : Nat → Nat)
    (line offset : Int) : Int × Int :=
  let l0 : Int := min line ((lineCount : Int) - 1)
  let l : Int := if l0 < 0 then 0 else l0
  (l, min offset ((lineLen l.toNat : Nat) : Int))

/-- Validity of a (line, offset) position per the data model: the line index
is within the document and the offset is within the line. -/
def validPos (lineCount : Nat) (lineLen : Nat → Nat) (pos : Int × Int) : Prop :=
  0 ≤ pos.1 ∧ pos.1 < (lineCount : Int) ∧ 0 ≤ pos.2 ∧ pos.2 ≤ (lineLen pos.1.toNat : Int)

instance (lineCount : Nat) (lineLen : Nat → Nat) (pos : Int × Int) :
    Decidable (validPos lineCount lineLen pos) := by
  unfold validPos; infer_instance

/-! ## `cleanup_whitespace_characters` and `save` (C9) -/

/-- The per-line effect of the loop body in
`Source::View::cleanup_whitespace_characters` (source.cc 388-401): starting
from the line end, walk backwards over spaces and tabs and erase from the
first character of the trailing whitespace run to the line end. -/
def cleanupLine (l : List Char) : List Char := (l.reverse.dropWhile isWS).reverse

/-- `Source::View::cleanup_whitespace_characters` (source.cc 385-406) on a
buffer given as its list of lines (the flat buffer is the lines joined by
newlines, a trailing newline appearing as a final empty line): each line
loses its trailing whitespace run; afterwards, if the buffer end is not at a
line start (the final line is nonempty), one newline is appended. -/
def cleanup_whitespace_characters (lines : List (List Char)) : List (List Char) :=
  let stripped := lines.map cleanupLine
  if stripped.getLast?.getD [] = [] then stripped else stripped ++ [[]]

/-- The buffer-content effect of `Source::View::save` (source.cc 432-448): when
the `cleanup_whitespace_characters` configuration option is set, the cleanup
runs on the (modified) buffer before it is written. -/
def saveBuffer (cleanupOption : Bool) (lines : List (List Char)) : List (List Char) :=
  if cleanupOption then cleanup_whitespace_characters lines else lines

/-! ## Structural scans (C1, C2) -/

/-- Scan state of the paren/bracket balancing scans
(`find_start_of_closed_expression`, `find_open_expression_symbol`):
`count1` balances `()`, `count2` balances `[]`, and `ignore` is the
char-literal flag toggled by unescaped single quotes. -/
structure PBState where
  count1 : Int
  count2 : Int
  ignore : Bool
  deriving DecidableEq, Repr

/-- The initial scan state: both counters 0, char-literal flag off. -/
def PBState.init : PBState := ⟨0, 0, false⟩

/-- Whether the scans' single-quote handling toggles the char-literal flag at
position `p`.  The source tests the two preceding iterator positions with
`*before_iter != '\\' || *before_before_iter == '\\'`; both iterators come
from `backward_char`, which sticks at offset 0, exactly like the truncated
subtraction used here. -/
def quoteToggles (t : List Char) (p : Nat) : Bool :=
  charAt t (p - 1) ≠ '\\' || charAt t (p - 2) = '\\'

/-- One character step of the paren/bracket scans at position `p` (the loop
body of `find_start_of_closed_expression`, source.cc 920-940, identical in
`find_open_expression_symbol`, 957-976): characters whose context is comment
or string are skipped entirely; at a plain single quote the char-literal
flag is toggled when `quoteToggles`; otherwise, outside the char-literal
state, `)`/`]` increment and `(`/`[` decrement the respective counter. -/
def scanStep (t : List Char) (ctx : Nat → Ctx) (p : Nat) (s : PBState) : PBState :=
  if ctx p = Ctx.plain then
    if charAt t p = '\'' then
      if quoteToggles t p then { s with ignore := !s.ignore } else s
    else if s.ignore then s
    else if charAt t p = ')' then { s with count1 := s.count1 + 1 }
    else if charAt t p = ']' then { s with count2 := s.count2 + 1 }
    else if charAt t p = '(' then { s with count1 := s.count1 - 1 }
    else if charAt t p = '[' then { s with count2 := s.count2 - 1 }
    else s
  else s

/-- The backward do-while loop of
`Source::View::find_start_of_closed_expression` (source.cc 914-948), before
the found-iterator tab adjustment: starting at `p`, each position is fed to
`scanStep`; the loop stops successfully at the first position that starts a
line with both counters ≤ 0 (tested after that position's own step), and
fails when `backward_char` fails at offset 0. -/
def findClosedExprAux (t : List Char) (ctx : Nat → Ctx) : Nat → PBState → Option Nat
  | p, s =>
    let s' := scanStep t ctx p s
    if startsLine t p ∧ s'.count1 ≤ 0 ∧ s'.count2 ≤ 0 then some p
    else
      match p with
      | 0 => none
      | q + 1 => findClosedExprAux t ctx q s'

/-- The found-iterator adjustment at source.cc 942-943, driven by a fuel
argument (`t.length - p` at the entry point) standing for the positions left
before `forward_char` fails at the buffer end: from the stop position, step
forward over `tab_char` characters, stopping at the insert (cursor)
position or at the buffer end. -/
def skipTabCharsAux (t : List Char) (tabChar : Char) (insertPos : Nat) :
    Nat → Nat → Nat
  | 0, p => p
  | n + 1, p =>
    if p ≠ insertPos ∧ charAt t p = tabChar then
      skipTabCharsAux t tabChar insertPos n (p + 1)
    else p

/-- The found-iterator tab adjustment (source.cc 942-943) from position `p`. -/
def skipTabChars (t : List Char) (tabChar : Char) (insertPos : Nat) (p : Nat) : Nat :=
  skipTabCharsAux t tabChar insertPos (t.length - p) p

/-- `Source::View::find_start_of_closed_expression` (source.cc 914-949): the
backward scan from `p`, with the found iterator advanced over leading
`tab_char` characters up to the cursor position `insertPos`. -/
def find_start_of_closed_expression (t : List Char) (ctx : Nat → Ctx)
    (tabChar : Char) (insertPos : Nat) (p : Nat) : Option Nat :=
  (findClosedExprAux t ctx p PBState.init).map (skipTabChars t tabChar insertPos)

/-- `Source::View::find_open_expression_symbol` (source.cc 951-985): backward
scan between `p` (exclusive) and `untilPos`, same balance and ignore rules as
`find_start_of_closed_expression`, returning the first position whose step
leaves a counter negative (tested only at plain-context positions). -/
def findOpenSymbolAux (t : List Char) (ctx : Nat → Ctx) (untilPos : Nat) :
    Nat → PBState → Option Nat
  | 0, _ => none
  | q + 1, s =>
    if q + 1 = untilPos then none
    else
      let s' := scanStep t ctx q s
      if ctx q = Ctx.plain ∧ (s'.count1 < 0 ∨ s'.count2 < 0) then some q
      else findOpenSymbolAux t ctx untilPos q s'

/-- Entry point of `find_open_expression_symbol` starting at position `p`. -/
def find_open_expression_symbol (t : List Char) (ctx : Nat → Ctx)
    (untilPos p : Nat) : Option Nat :=
  findOpenSymbolAux t ctx untilPos p PBState.init

/-- Scan state of the single-counter brace scans
(`find_right_bracket_forward`, `find_left_bracket_backward`). -/
structure BrState where
  count : Int
  ignore : Bool
  deriving DecidableEq, Repr

/-- The initial brace-scan state. -/
def BrState.init : BrState := ⟨0, false⟩

/-- One character step of the brace scans at position `p`, shared between
`find_right_bracket_forward` (source.cc 992-1013, `inc` = `{`, `dec` = `}`)
and `find_left_bracket_backward` (source.cc 1023-1044, `inc` = `}`,
`dec` = `{`), factored out of the early return taken when `dec` is met at
counter 0: comment/string characters are skipped; a plain single quote
toggles the char-literal flag when `quoteToggles`; otherwise, outside the
char-literal state, `dec` at nonzero count decrements and `inc` increments. -/
def braceStep (inc dec : Char) (t : List Char) (ctx : Nat → Ctx) (p : Nat)
    (s : BrState) : BrState :=
  if ctx p = Ctx.plain then
    if charAt t p = '\'' then
      if quoteToggles t p then { s with ignore := !s.ignore } else s
    else if s.ignore then s
    else if charAt t p = dec then
      if s.count = 0 then s else { s with count := s.count - 1 }
    else if charAt t p = inc then { s with count := s.count + 1 }
    else s
  else s

/-- The loop of `Source::View::find_right_bracket_forward` (source.cc
987-1016), processing positions `p, p+1, ...` with `fuel` positions left
before `forward_char` reaches the buffer end: returns the position of the
first plain, non-ignored `}` met at nesting count 0. -/
def findRightBracketAux (t : List Char) (ctx : Nat → Ctx) :
    Nat → Nat → BrState → Option Nat
  | 0, _, _ => none
  | fuel + 1, p, s =>
    if ctx p = Ctx.plain ∧ s.ignore = false ∧ charAt t p = '}' ∧ s.count = 0 then
      some p
    else findRightBracketAux t ctx fuel (p + 1) (braceStep '{' '}' t ctx p s)

/-- `Source::View::find_right_bracket_forward` from position `p`: the loop
body runs at positions `p+1 … length-1` (the initial `forward_char` skips
`p` itself). -/
def find_right_bracket_forward (t : List Char) (ctx : Nat → Ctx) (p : Nat) :
    Option Nat :=
  findRightBracketAux t ctx (t.length - (p + 1)) (p + 1) BrState.init

/-- The loop of `Source::View::find_left_bracket_backward` (source.cc
1018-1047), processing positions `q-1` down to 0 (the argument is the
position above the one examined): returns the position of the first plain,
non-ignored `{` met at nesting count 0. -/
def findLeftBracketAux (t : List Char) (ctx : Nat → Ctx) :
    Nat → BrState → Option Nat
  | 0, _ => none
  | q + 1, s =>
    if ctx q = Ctx.plain ∧ s.ignore = false ∧ charAt t q = '{' ∧ s.count = 0 then
      some q
    else findLeftBracketAux t ctx q (braceStep '}' '{' t ctx q s)

/-- `Source::View::find_left_bracket_backward` from position `p`. -/
def find_left_bracket_backward (t : List Char) (ctx : Nat → Ctx) (p : Nat) :
    Option Nat :=
  findLeftBracketAux t ctx p BrState.init

/-- Fuel-driven unrolling of the scan states of a backward scan: the state
after feeding positions `q + fuel, …, q + 1, q` (in backward scan order) to
`scanStep`, starting from state `s`. -/
def scanFromAux (t : List Char) (ctx : Nat → Ctx) : Nat → Nat → PBState → PBState
  | 0, q, s => scanStep t ctx q s
  | fuel + 1, q, s => scanStep t ctx q (scanFromAux t ctx fuel (q + 1) s)

/-- The scan state after a backward scan started at `p0` has processed
positions `p0, p0-1, …, q` (meaningful for `q ≤ p0`). -/
def scanFrom (t : List Char) (ctx : Nat → Ctx) (p0 q : Nat) (s : PBState) : PBState :=
  scanFromAux t ctx (p0 - q) q s

/-- The stop condition of the backward scan at position `j`, for a scan
started at position `q` in state `s`: `j` starts a line and both
bracket-balance counters are ≤ 0 after the scan has processed positions `q`
down to `j`. -/
def goodAt (t : List Char) (ctx : Nat → Ctx) (q j : Nat) (s : PBState) : Prop :=
  startsLine t j ∧ (scanFrom t ctx q j s).count1 ≤ 0 ∧
    (scanFrom t ctx q j s).count2 ≤ 0

instance (t : List Char) (ctx : Nat → Ctx) (q j : Nat) (s : PBState) :
    Decidable (goodAt t ctx q j s) := by
  unfold goodAt; infer_instance

/-- The condition the C1 claim attaches to the returned position of
`find_start_of_closed_expression` started at `p0`: position `q` starts a
line, and both bracket-balance counters are ≤ 0 once the backward scan has
processed positions `p0` down to `q` from the initial state. -/
def closedAt (t : List Char) (ctx : Nat → Ctx) (p0 q : Nat) : Prop :=
  goodAt t ctx p0 q PBState.init

instance (t : List Char) (ctx : Nat → Ctx) (p0 q : Nat) :
    Decidable (closedAt t ctx p0 q) := by
  unfold closedAt; infer_instance

/-- The C2 claim's reading of "escaped": the immediately preceding character
is a backslash that is not itself preceded by a backslash, with positions
taken literally (no character precedes the buffer start). -/
def escapedSpec (t : List Char) (p : Nat) : Prop :=
  1 ≤ p ∧ charAt t (p - 1) = '\\' ∧ ¬(2 ≤ p ∧ charAt t (p - 2) = '\\')

instance (t : List Char) (p : Nat) : Decidable (escapedSpec t p) := by
  unfold escapedSpec; infer_instance

/-! ## Lines and cursors on the flat buffer (C4, C6, C8) -/

/-- `Source::View::get_line_before` at cursor offset `p` (source.cc 887-897):
the text between the start of the cursor's line and the cursor. -/
def lineBefore (t : List Char) (p : Nat) : List Char :=
  ((t.take p).reverse.takeWhile (fun c => c ≠ '\n')).reverse

/-- The offset of the start of the line containing offset `p`. -/
def lineStart (t : List Char) (p : Nat) : Nat := p - (lineBefore t p).length

/-- Erasing the character range [a, b) from the buffer
(`Gtk::TextBuffer::erase`). -/
def eraseRange (t : List Char) (a b : Nat) : List Char := t.take a ++ t.drop b

/-- The leading run of spaces and tabs of the line containing offset `p`:
`get_tabs_end_iter` (source.cc 905-909) stops that many characters after the
line start. -/
def tabsRun (t : List Char) (p : Nat) : Nat :=
  ((t.drop (lineStart t p)).takeWhile isWS).length

/-! ## Smart Backspace (C8) -/

/-- The default `Gsv::View::on_key_press_event` handling of a Backspace with
no selection, which the basic handler falls through to at source.cc 1393
(the keystroke's keyval has no unicode value ≥ 32, so the branch at 1375 is
not taken): the external text view erases the single character before the
cursor, when one exists. -/
def defaultBackspace (t : List Char) (p : Nat) : List Char × Nat :=
  if 0 < p then (eraseRange t (p - 1) p, p - 1) else (t, p)

/-- The net effect of `Source::View::on_key_press_event_basic` on a Backspace
keystroke with no selection (source.cc 1283-1296, then the fall-through to
the default view handler at 1393), all inside the single user action opened
at 1158 and closed at 1394: when every character between the line start and
the cursor is a space or tab, the whole run is erased by the single `erase`
call at 1295 (provided `backward_chars(line.size())` moved, i.e. the run is
nonempty); afterwards the default handler erases one more character before
the remaining cursor. -/
def smart_backspace (t : List Char) (p : Nat) : List Char × Nat :=
  let line := lineBefore t p
  if line.all isWS then
    if 0 < line.length then
      defaultBackspace (eraseRange t (p - line.length) p) (p - line.length)
    else defaultBackspace t p
  else defaultBackspace t p

/-! ## Paste reindenter (C4) -/

/-- The carriage-return normalisation at the top of `Source::View::paste`
(source.cc 693-701): each CR-LF pair and each lone CR becomes one newline,
and the scan resumes after the written newline. -/
def normalizeCR : List Char → List Char
  | [] => []
  | '\r' :: '\n' :: rest => '\n' :: normalizeCR rest
  | '\r' :: rest => '\n' :: normalizeCR rest
  | c :: rest => c :: normalizeCR rest

/-- Fuel-driven splitting of the pasted text into the line segments both
passes of `paste` iterate over (source.cc 715-723 and 757-765): a segment is
emitted at each newline, and at the last character when the text does not
end in a newline, so the empty tail after a final newline is not processed.
The fuel (the text length at the entry point) bounds the number of
segments. -/
def pasteSegmentsAux : Nat → List Char → List (List Char)
  | 0, _ => []
  | _, [] => []
  | fuel + 1, cs =>
    let seg := cs.takeWhile (fun c => c ≠ '\n')
    match cs.dropWhile (fun c => c ≠ '\n') with
    | [] => [seg]
    | _ :: rest => seg :: pasteSegmentsAux fuel rest

/-- The line segments of the pasted text. -/
def pasteSegments (cs : List Char) : List (List Char) :=
  pasteSegmentsAux cs.length cs

/-- The measuring pass of `paste` (source.cc 709-751) over the segments:
returns (`paste_line_tabs`, `first_paste_line_has_tabs`).  The C++
`paste_line_tabs` starts at SIZE_MAX, modelled as `none`; the first segment
initialises it with its own leading `tab_char` count when that is nonzero;
every later segment that does not consist solely of `tab_char` characters
(`empty_line` in the source) lowers it by `std::min`. -/
def pasteMeasure (tc : Char) : List (List Char) → Bool → Option Nat → Bool →
    Option Nat × Bool
  | [], _, acc, hasTabs => (acc, hasTabs)
  | seg :: rest, first, acc, hasTabs =>
    let tabs := (seg.takeWhile (fun c => c = tc)).length
    if first then
      if tabs ≠ 0 then pasteMeasure tc rest false (some tabs) true
      else pasteMeasure tc rest false acc hasTabs
    else
      if ¬ seg.all (fun c => c = tc) then
        pasteMeasure tc rest false
          (some (match acc with | none => tabs | some a => min a tabs)) hasTabs
      else pasteMeasure tc rest false acc hasTabs

/-- The emitting pass of `paste` (source.cc 752-792): each segment is
stripped of `min(its own leading tab_char run, paste_line_tabs)` leading
characters — except that a first segment without leading tabs is inserted
verbatim — and every segment after the first is prefixed with a newline and
the destination line's indentation `pfxTabs`. -/
def pasteEmit (tc : Char) (pfxTabs : List Char) (plt : Nat) (hasTabs : Bool) :
    List (List Char) → Bool → List Char
  | [], _ => []
  | seg :: rest, first =>
    let lineTabs := (seg.takeWhile (fun c => c = tc)).length
    let tabs := if ¬(first ∧ ¬hasTabs) ∧ lineTabs < plt then lineTabs else plt
    if first then
      (if hasTabs then seg.drop tabs else seg) ++
        pasteEmit tc pfxTabs plt hasTabs rest false
    else
      ('\n' :: (pfxTabs ++ seg.drop tabs)) ++ pasteEmit tc pfxTabs plt hasTabs rest false

/-- The full text inserted at the cursor by the reindenting path of `paste`. -/
def pasteInsertedText (tc : Char) (pfxTabs : List Char) (clip : List Char) :
    List Char :=
  let segs := pasteSegments (normalizeCR clip)
  let m := pasteMeasure tc segs true none false
  pasteEmit tc pfxTabs (m.1.getD 0) m.2 segs true

/-- `Source::View::paste` (source.cc 690-802).  The reindenting path applies
when there is no selection and `get_tabs_end_iter()` of the cursor's line
ends the line (everything after the leading whitespace run is the line end);
`prefix_tabs` is then that whitespace run, and the reindented text is
inserted at the cursor.  The other path (source.cc 797-801) pastes the
clipboard through the widget unmodified and is left unmodelled (`none`). -/
def paste (tc : Char) (hasSelection : Bool) (t : List Char) (cursor : Nat)
    (clip : List Char) : Option (List Char × Nat) :=
  let ls := lineStart t cursor
  let run := tabsRun t cursor
  if ¬ hasSelection ∧ endsLine t (ls + run) then
    let pfx := (t.drop ls).take run
    let ins := pasteInsertedText tc pfx clip
    some (t.take cursor ++ ins ++ t.drop cursor, cursor + ins.length)
  else none

/-- The indentation of the line containing offset `p`: the text
`get_line_before(get_tabs_end_iter(...))` yields for that line — its leading
run of spaces and tabs. -/
def lineIndent (t : List Char) (p : Nat) : List Char :=
  (t.drop (lineStart t p)).take (tabsRun t p)

/-! ## Bracket-language Enter (C6) -/

/-- The forward blank scan of the bracket Enter handler (source.cc
1407-1408): `end_blank_iter` moves forward while it sits on a space or tab
(a whitespace character is never at the buffer end or a line end, so the
`!ends_line` and `forward_char` guards fail exactly when the whitespace run
does). -/
def blanksEnd (t : List Char) (p : Nat) : Nat :=
  p + ((t.drop p).takeWhile isWS).length

/-- The backward blank scan of the bracket Enter handler (source.cc
1409-1411), driven by a fuel argument (`p` at the entry point, enough to
reach offset 0): move backward while on a space, a tab or a line end, and
not at a line start. -/
def blanksStartAux (t : List Char) : Nat → Nat → Nat
  | 0, s => s
  | fuel + 1, s =>
    if (isWS (charAt t s) = true ∨ endsLine t s) ∧ ¬ startsLine t s then
      blanksStartAux t fuel (s - 1)
    else s

/-- The final position of `start_blank_iter`: one initial `backward_char`
from the cursor, then the backward blank scan. -/
def blanksStart (t : List Char) (p : Nat) : Nat :=
  blanksStartAux t p (p - 1)

/-- The blank removal around the cursor at the top of the bracket Enter
branch (source.cc 1405-1417): erase between the character after the last
non-blank position before the cursor (or the line start) and the end of the
whitespace run after the cursor; the cursor lands at the erase point. -/
def removeBlanksAroundCursor (t : List Char) (p : Nat) : List Char × Nat :=
  if ¬ startsLine t (blanksStart t p) then
    (eraseRange t (blanksStart t p + 1) (blanksEnd t p), blanksStart t p + 1)
  else
    (eraseRange t p (blanksEnd t p), p)

/-- The core of the Enter branch of
`Source::View::on_key_press_event_bracket_language` (source.cc 1420-1446)
after the blank removal, restricted to the cursor-after-`{`,
next-character-`}` path the C6 claim exercises: `find_start_of_closed_
expression` locates the enclosing statement and `tabs` becomes its line's
indentation; with `{` right before and `}` right at the cursor, the text
"\n" + tabs + tab + "\n" + tabs is inserted at the cursor and the cursor is
moved back by `tabs.length + 1`, onto the end of the blank indented middle
line.  (The `has_bracket` computation at 1427-1436 does not influence this
path; the remaining branches of the handler fall outside the claim and are
left unmodelled as `none`.) -/
def bracketEnterCore (ctx : Nat → Ctx) (tc : Char) (ts : Nat) (t1 : List Char)
    (c1 : Nat) : Option (List Char × Nat) :=
  match find_start_of_closed_expression t1 ctx tc c1 c1 with
  | none => none
  | some st =>
    if c1 ≠ 0 ∧ charAt t1 (c1 - 1) = '{' then
      if charAt t1 c1 = '}' then
        some (t1.take c1 ++ ('\n' :: (lineIndent t1 st ++ List.replicate ts tc)) ++
            ('\n' :: lineIndent t1 st) ++ t1.drop c1,
          c1 + 1 + (lineIndent t1 st).length + ts)
      else none
    else none

/-- The Enter branch of `on_key_press_event_bracket_language` (source.cc
1403-1446): nothing happens at a line start (the handler falls through to
the basic handler, unmodelled); otherwise blanks around the cursor are
erased and the core branch runs on the resulting buffer and cursor. -/
def on_key_press_enter_bracket (ctx : Nat → Ctx) (tc : Char) (ts : Nat)
    (t : List Char) (cur : Nat) : Option (List Char × Nat) :=
  if startsLine t cur then none
  else bracketEnterCore ctx tc ts (removeBlanksAroundCursor t cur).1
    (removeBlanksAroundCursor t cur).2

/-! ## Shift-Tab outdent (C5) -/

/-- Whether a line of the Shift-Tab range is touched: the loops at source.cc
1249-1251 and 1270-1273 skip a line exactly when there is a selection and the
selection end sits at that line's first offset (`line_it == selection_end`);
`le` is the selection end's line and `colEnd` its column. -/
def outdentTouched (hasSel : Bool) (le colEnd : Nat) (i : Nat) : Bool :=
  !(hasSel && (i == le) && (colEnd == 0))

/-- The measuring loop of the Shift-Tab branch of
`Source::View::on_key_press_event_basic` (source.cc 1247-1268), iterating
over `n` lines starting at line index `i` with `indent_left_steps`
accumulated in `acc` (initially `tab_size`): an empty touched line is
ignored; a touched nonempty line with no leading whitespace aborts the whole
outdent (`none`, the code's early `return true` before any mutation); any
other touched line lowers the step count to its leading whitespace run. -/
def outdentScan (touched : Nat → Bool) (lines : List (List Char)) :
    Nat → Nat → Nat → Option Nat
  | 0, _, acc => some acc
  | n + 1, i, acc =>
    if touched i = true then
      let l := lines.getD i []
      if l = [] then outdentScan touched lines n (i + 1) acc
      else if (l.takeWhile isWS).length = 0 then none
      else outdentScan touched lines n (i + 1) (min acc (l.takeWhile isWS).length)
    else outdentScan touched lines n (i + 1) acc

/-- The erasing loop of the Shift-Tab branch (source.cc 1270-1278), expressed
over all lines with the range condition made explicit: every touched,
non-ignored (nonempty) line in [ls, le] loses its first `steps` characters.
(The `ignore_line` vector is indexed by `line_nr - line_start`; the only
line the first loop can skip without pushing is the selection-end line,
which is the last one, so the vector entry of every touched line is its own
emptiness flag.) -/
def outdentApplyAux (touched : Nat → Bool) (steps ls le : Nat) :
    Nat → List (List Char) → List (List Char)
  | _, [] => []
  | i, l :: rest =>
    (if ls ≤ i ∧ i ≤ le ∧ touched i = true ∧ l ≠ [] then l.drop steps else l) ::
      outdentApplyAux touched steps ls le (i + 1) rest

/-- The Shift-Tab outdent over the selected line range [ls, le] (source.cc
1241-1280): measure, abort on a zero-indentation touched line, otherwise
erase the common step count from every touched nonempty line. -/
def shiftTabOutdent (tabSize : Nat) (hasSel : Bool) (ls le colEnd : Nat)
    (lines : List (List Char)) : List (List Char) :=
  match outdentScan (outdentTouched hasSel le colEnd) lines (le + 1 - ls) ls tabSize with
  | none => lines
  | some steps => outdentApplyAux (outdentTouched hasSel le colEnd) steps ls le 0 lines

/-- The step count the C5 claim specifies: the minimum of `tab_size` and the
minimum leading-whitespace run across all touched non-empty lines of the
range. -/
def outdentStepsSpec (tabSize : Nat) (touched : Nat → Bool)
    (lines : List (List Char)) (ls le : Nat) : Nat :=
  (((List.range' ls (le + 1 - ls)).filter
      (fun i => touched i && !(lines.getD i []).isEmpty)).map
    (fun i => ((lines.getD i []).takeWhile isWS).length)).foldl min tabSize

/-! ## Comment toggler (C7) -/

/-- The per-line analysis of the `toggle_comments` lambda (source.cc
303-344): skip leading whitespace counting `indentation`; a line with no
further content does not count (`none`); otherwise the line counts and the
loop at 320-341 determines whether the comment marker `pfx` follows
(`line_commented`) and, if so, whether a space follows the marker
(`extra_space`). -/
def lineInfo (pfx : List Char) (l : List Char) : Option (Bool × Bool × Nat) :=
  let ind := (l.takeWhile isWS).length
  let rest := l.drop ind
  match rest with
  | [] => none
  | _ :: _ =>
    let commented := decide (pfx ≠ []) && decide (rest.take pfx.length = pfx)
    let extra := commented && decide ((rest.drop pfx.length).head? = some ' ')
    some (commented, extra, ind)

/-- The analysis of the line at index `i`, with a dummy default for indices
that do not count. -/
def infoOf (pfx : List Char) (lines : List (List Char)) (i : Nat) : Bool × Bool × Nat :=
  (lineInfo pfx (lines.getD i [])).getD (false, false, 0)

/-- The indices of the counted lines of the range [ls, le] — the `lines`
vector of source.cc 293/318. -/
def countedIdx (pfx : List Char) (lines : List (List Char)) (ls le : Nat) : List Nat :=
  (List.range' ls (le + 1 - ls)).filter
    (fun i => (lineInfo pfx (lines.getD i [])).isSome)

/-- `lines_commented` (source.cc 300/346): every counted line carries the
marker. -/
def linesCommented (pfx : List Char) (lines : List (List Char)) (ls le : Nat) : Bool :=
  (countedIdx pfx lines ls le).all (fun i => (infoOf pfx lines i).1)

/-- `extra_spaces` (source.cc 301/347): every counted line has a space right
after the marker. -/
def extraSpaces (pfx : List Char) (lines : List (List Char)) (ls le : Nat) : Bool :=
  (countedIdx pfx lines ls le).all (fun i => (infoOf pfx lines i).2.1)

/-- `min_indentation` (source.cc 302/348-349): the smallest indentation among
the counted lines (0, unused, when none count). -/
def minIndentation (pfx : List Char) (lines : List (List Char)) (ls le : Nat) : Nat :=
  match (countedIdx pfx lines ls le).map (fun i => (infoOf pfx lines i).2.2) with
  | [] => 0
  | x :: xs => xs.foldl min x

/-- The mutation of one counted line (source.cc 355-368).  When all counted
lines are commented, the erase window starts `minInd` characters in, slides
forward over whitespace (landing on the line's marker), and removes the
marker plus one space if every counted line had one; otherwise the marker
and a space are inserted at column `minInd`. -/
def toggleLineEdit (pfx : List Char) (allCommented allExtra : Bool) (minInd : Nat)
    (l : List Char) : List Char :=
  if allCommented then
    l.take (minInd + ((l.drop minInd).takeWhile isWS).length) ++
      l.drop (minInd + ((l.drop minInd).takeWhile isWS).length + pfx.length +
        (if allExtra then 1 else 0))
  else
    l.take minInd ++ (pfx ++ (' ' :: l.drop minInd))

/-- The mutation loop of `toggle_comments` (source.cc 352-370) over all
lines, the range condition made explicit: every counted line in [ls, le] is
edited, all others are unchanged. -/
def toggleApplyAux (pfx : List Char) (allC allE : Bool) (minInd ls le : Nat) :
    Nat → List (List Char) → List (List Char)
  | _, [] => []
  | i, l :: rest =>
    (if ls ≤ i ∧ i ≤ le ∧ (lineInfo pfx l).isSome = true then
      toggleLineEdit pfx allC allE minInd l
    else l) :: toggleApplyAux pfx allC allE minInd ls le (i + 1) rest

/-- The `toggle_comments` lambda of the `View` constructor (source.cc
292-372) over the line range [ls, le] (the range the selection yields after
the `--line_end` adjustment at 298-299): analyse the lines, and when any
line counts, un-comment all counted lines if they all carry the marker,
otherwise comment all counted lines at the minimum indentation. -/
def toggle_comments (pfx : List Char) (ls le : Nat) (lines : List (List Char)) :
    List (List Char) :=
  if countedIdx pfx lines ls le = [] then lines
  else
    toggleApplyAux pfx (linesCommented pfx lines ls le) (extraSpaces pfx lines ls le)
      (minIndentation pfx lines ls le) ls le 0 lines

/-! ## Tab style detector (C3) -/

/-- Increment of the `std::unordered_map` histogram `tab_sizes`, modelled as
an association list in insertion order. -/
def bumpSize (k : Nat) : List (Nat × Nat) → List (Nat × Nat)
  | [] => [(k, 1)]
  | (k', v) :: rest =>
    if k' = k then (k', v + 1) :: rest else (k', v) :: bumpSize k rest

/-- The inner scan of `find_tab_char_and_size` (source.cc 1673-1681) that
finds the last non-blank character of the current line, stopping early at a
`(`; fuel-driven (`t.length - q` at the entry point). -/
def lastLineCharAux (t : List Char) : Nat → Nat → Char → Char
  | 0, _, acc => acc
  | fuel + 1, q, acc =>
    if q < t.length ∧ ¬ endsLine t q then
      let acc' := if isWS (charAt t q) = false then charAt t q else acc
      if charAt t q = '(' then acc'
      else lastLineCharAux t fuel (q + 1) acc'
    else acc

/-- The last non-blank character of the line from position `p` on (0 when
none), as computed at source.cc 1673-1681. -/
def lastLineChar (t : List Char) (p : Nat) : Char :=
  lastLineCharAux t (t.length - p) p (Char.ofNat 0)

/-- The line index of position `p` (`Gtk::TextIter::get_line`). -/
def lineOf (t : List Char) (p : Nat) : Nat := (t.take p).count '\n'

/-- `Gtk::TextBuffer::get_line_count`: one more than the number of
newlines. -/
def lineCountOf (t : List Char) : Nat := t.count '\n' + 1

/-- The offset of the start of the line following the one containing `p`
(the target of `get_iter_at_line(iter.get_line()+1)` at source.cc 1685):
one past the first newline at or after `p`. -/
def nextLineStart (t : List Char) (p : Nat) : Nat :=
  p + ((t.drop p).takeWhile (fun c => c ≠ '\n')).length + 1

/-- The walk state of the bracket-language branch of
`find_tab_char_and_size` (source.cc 1646-1728): the comment/quote flags, the
`bracket_last_line` flag, `last_char`, the three (sentinel -1) counters, and
the gathered statistics `tab_chars` (split into its two possible keys) and
`tab_sizes`. -/
structure TabScanBState where
  lineComment : Bool
  comment : Bool
  singleQuoted : Bool
  doubleQuoted : Bool
  bracketLastLine : Bool
  lastChar : Char
  tabCount : Int
  lastTabCount : Int
  lastTabDiff : Int
  spaces : Nat
  tabs : Nat
  tabSizes : List (Nat × Nat)
  deriving DecidableEq, Repr

/-- The initial bracket-walk state (source.cc 1638-1651). -/
def TabScanBState.init : TabScanBState :=
  ⟨false, false, false, false, false, Char.ofNat 0, -1, 0, -1, 0, 0, []⟩

/-- The tail of one bracket-walk iteration (source.cc 1699-1727, the
quote/comment tracking and the `last_char` / `}` / `tab_count` updates) at
position `q`, which the `*/` branch may have advanced beyond the position the
iteration started at; returns the state plus the next loop position
(`forward_char`). -/
def tabScanBFinish (t : List Char) (q : Nat) (s : TabScanBState) :
    TabScanBState × Nat :=
  let ch := charAt t q
  let s :=
    if ¬ s.singleQuoted ∧ ¬ s.doubleQuoted ∧ ¬ s.comment ∧ ¬ s.lineComment ∧
        ch ≠ ' ' ∧ ch ≠ '\t' ∧ ¬ endsLine t q then
      { s with lastChar := ch }
    else s
  let s :=
    if ¬ s.singleQuoted ∧ ¬ s.doubleQuoted ∧ ¬ s.comment ∧ ¬ s.lineComment ∧
        ch = '}' ∧ s.tabCount ≠ -1 ∧ s.lastTabDiff ≠ -1 then
      { s with lastTabCount := s.lastTabCount - s.lastTabDiff }
    else s
  let s := if ch ≠ ' ' ∧ ch ≠ '\t' then { s with tabCount := -1 } else s
  (s, q + 1)

/-- The quote/comment classification step of a bracket-walk iteration
(source.cc 1699-1719) at position `p`, followed by `tabScanBFinish` (the
`*/` branch advances the iterator by two first, clamped at the buffer
end). -/
def tabScanBQuotes (t : List Char) (p : Nat) (s : TabScanBState) :
    TabScanBState × Nat :=
  let ch := charAt t p
  let prev := charAt t (p - 1)
  let prevPrev := charAt t (p - 2)
  if ¬ s.doubleQuoted ∧ ch = '\'' ∧ ¬(prev = '\\' ∧ prevPrev ≠ '\\') then
    tabScanBFinish t p { s with singleQuoted := ! s.singleQuoted }
  else if ¬ s.singleQuoted ∧ ch = '"' ∧ ¬(prev = '\\' ∧ prevPrev ≠ '\\') then
    tabScanBFinish t p { s with doubleQuoted := ! s.doubleQuoted }
  else if ¬ s.singleQuoted ∧ ¬ s.doubleQuoted then
    if ch = '/' ∧ charAt t (p + 1) = '/' then
      tabScanBFinish t p { s with lineComment := true }
    else if ch = '/' ∧ charAt t (p + 1) = '*' then
      tabScanBFinish t p { s with comment := true }
    else if ch = '*' ∧ charAt t (p + 1) = '/' then
      tabScanBFinish t (min (p + 2) t.length) { s with comment := false }
    else tabScanBFinish t p s
  else tabScanBFinish t p s

/-- One full iteration of the bracket walk at position `p` (source.cc
1652-1727): the line-start resets (1653-1662), the indentation measuring
(1663-1697) — whose `:`/`#` case may jump straight to the next line start
(`continue` at 1686) — and the tail steps. -/
def tabScanBStep (t : List Char) (p : Nat) (s : TabScanBState) :
    TabScanBState × Nat :=
  let s :=
    if startsLine t p then
      { s with lineComment := false, singleQuoted := false, doubleQuoted := false,
               tabCount := 0, bracketLastLine := (s.lastChar = '{') }
    else s
  let ch := charAt t p
  if s.bracketLastLine ∧ s.tabCount ≠ -1 then
    if ch = ' ' then
      tabScanBQuotes t p { s with spaces := s.spaces + 1, tabCount := s.tabCount + 1 }
    else if ch = '\t' then
      tabScanBQuotes t p { s with tabs := s.tabs + 1, tabCount := s.tabCount + 1 }
    else if lastLineChar t p = ':' ∨ ch = '#' then
      if lineOf t p + 1 < lineCountOf t then
        ({ s with tabCount := 0 }, nextLineStart t p)
      else tabScanBQuotes t p { s with tabCount := 0 }
    else if ¬ endsLine t p then
      tabScanBQuotes t p
        { s with
          tabSizes :=
            if s.tabCount ≠ s.lastTabCount then
              bumpSize (s.tabCount - s.lastTabCount).natAbs s.tabSizes
            else s.tabSizes,
          lastTabDiff := (s.tabCount - s.lastTabCount).natAbs,
          lastTabCount := s.tabCount,
          lastChar := Char.ofNat 0 }
    else tabScanBQuotes t p s
  else tabScanBQuotes t p s

/-- The bracket walk (`while(iter)` at source.cc 1652), fuel-driven; every
iteration advances the position by at least one, so `t.length` fuel covers
the whole buffer. -/
def tabScanB (t : List Char) : Nat → Nat → TabScanBState → TabScanBState
  | 0, _, s => s
  | fuel + 1, p, s =>
    if p < t.length then
      tabScanB t fuel (tabScanBStep t p s).2 (tabScanBStep t p s).1
    else s

/-- The walk state of the non-bracket branch of `find_tab_char_and_size`
(source.cc 1730-1768). -/
structure TabScanNBState where
  singleQuoted : Bool
  doubleQuoted : Bool
  paraCount : Int
  tabCount : Int
  lastTabCount : Int
  spaces : Nat
  tabs : Nat
  tabSizes : List (Nat × Nat)
  deriving DecidableEq, Repr

/-- The initial non-bracket-walk state. -/
def TabScanNBState.init : TabScanNBState := ⟨false, false, 0, -1, 0, 0, 0, []⟩

/-- One iteration of the non-bracket walk at position `p` (source.cc
1732-1767): reset `tab_count` at a line start; count indentation characters
and record the delta histogram only outside of parentheses and quotes;
track quotes and parenthesis depth; reset `tab_count` at any non-blank
character. -/
def tabScanNBStep (t : List Char) (p : Nat) (s : TabScanNBState) : TabScanNBState :=
  let s := if startsLine t p then { s with tabCount := 0 } else s
  let ch := charAt t p
  let s :=
    if s.tabCount ≠ -1 ∧ s.paraCount = 0 ∧ s.singleQuoted = false ∧
        s.doubleQuoted = false then
      if ch = ' ' then { s with spaces := s.spaces + 1, tabCount := s.tabCount + 1 }
      else if ch = '\t' then { s with tabs := s.tabs + 1, tabCount := s.tabCount + 1 }
      else if ¬ endsLine t p then
        { s with
          tabSizes :=
            if s.tabCount ≠ s.lastTabCount then
              bumpSize (s.tabCount - s.lastTabCount).natAbs s.tabSizes
            else s.tabSizes,
          lastTabCount := s.tabCount }
      else s
    else s
  let prev := charAt t (p - 1)
  let prevPrev := charAt t (p - 2)
  let s :=
    if ¬ s.doubleQuoted ∧ ch = '\'' ∧ ¬(prev = '\\' ∧ prevPrev ≠ '\\') then
      { s with singleQuoted := ! s.singleQuoted }
    else if ¬ s.singleQuoted ∧ ch = '"' ∧ ¬(prev = '\\' ∧ prevPrev ≠ '\\') then
      { s with doubleQuoted := ! s.doubleQuoted }
    else if ¬ s.singleQuoted ∧ ¬ s.doubleQuoted then
      if ch = '(' then { s with paraCount := s.paraCount + 1 }
      else if ch = ')' then { s with paraCount := s.paraCount - 1 }
      else s
    else s
  if ch ≠ ' ' ∧ ch ≠ '\t' then { s with tabCount := -1 } else s

/-- The non-bracket walk over the whole buffer, fuel-driven. -/
def tabScanNB (t : List Char) : Nat → Nat → TabScanNBState → TabScanNBState
  | 0, _, s => s
  | fuel + 1, p, s =>
    if p < t.length then tabScanNB t fuel (p + 1) (tabScanNBStep t p s) else s

/-- The statistics `find_tab_char_and_size` gathers on buffer `t`:
(occurrences of space, occurrences of tab, delta-width histogram).
`isBracketLang` stands for the source's `is_bracket_language && !html` test
at source.cc 1646. -/
def tabStats (isBracketLang : Bool) (t : List Char) : Nat × Nat × List (Nat × Nat) :=
  if isBracketLang then
    ((tabScanB t t.length 0 TabScanBState.init).spaces,
      (tabScanB t t.length 0 TabScanBState.init).tabs,
      (tabScanB t t.length 0 TabScanBState.init).tabSizes)
  else
    ((tabScanNB t t.length 0 TabScanNBState.init).spaces,
      (tabScanNB t t.length 0 TabScanNBState.init).tabs,
      (tabScanNB t t.length 0 TabScanNBState.init).tabSizes)

/-- The `tab_chars` selection loop (source.cc 1771-1778): strict `>` over the
(at most two) entries.  `std::unordered_map` iteration order is unspecified;
the model fixes space before tab — the property proved of the result (its
count is maximal) holds for either order. -/
def selectTabChar (spaces tabs : Nat) : Char :=
  if spaces > 0 ∨ tabs > 0 then (if tabs > spaces then '\t' else ' ')
  else Char.ofNat 0

/-- The `tab_sizes` selection loop (source.cc 1779-1786): strict `>` fold
starting from (0, 0), in the association list's order. -/
def selectTabSize (sizes : List (Nat × Nat)) : Nat :=
  (sizes.foldl (fun best kv => if kv.2 > best.2 then kv else best) (0, 0)).1

/-- `Source::View::find_tab_char_and_size` (source.cc 1637-1788). -/
def find_tab_char_and_size (isBracketLang : Bool) (t : List Char) : Char × Nat :=
  (selectTabChar (tabStats isBracketLang t).1 (tabStats isBracketLang t).2.1,
    selectTabSize (tabStats isBracketLang t).2.2)

/-- The caller's use of the detector in the `View` constructor (source.cc
253-269): with auto-detection on, the detected pair replaces the configured
defaults only when the detected character is not the 0 sentinel. -/
def applyDetectedTabStyle (autoDetect : Bool) (defaultChar : Char)
    (defaultSize : Nat) (detected : Char × Nat) : Char × Nat :=
  if autoDetect ∧ detected.1 ≠ Char.ofNat 0 then detected
  else (defaultChar, defaultSize)

/-! # Theorems -/

/-! ## C10 -/

/-- C10 counterexample: with a one-line empty document and the arguments
line = 0, offset = -1, the computed position has a negative offset, so the
cursor is not placed at a valid position of the document: the code never
clamps a negative `offset` from below. -/
theorem place_cursor_negative_offset_invalid :
    ¬ validPos 1 (fun _ => 0) (place_cursor_at_line_offset 1 (fun _ => 0) 0 (-1)) := by
  decide

/-- C10 (amended): `place_cursor_at_line_offset` clamps `line` into
[0, line_count - 1] and clamps `offset` from above by the clamped line's
length; it does not clamp `offset` from below, but whenever the requested
`offset` is non-negative the cursor lands on a valid position of the
document. -/
theorem place_cursor_at_line_offset_clamps (lineCount : Nat) (lineLen : Nat → Nat)
    (line offset : Int) (hc : 1 ≤ lineCount) :
    (0 ≤ (place_cursor_at_line_offset lineCount lineLen line offset).1 ∧
      (place_cursor_at_line_offset lineCount lineLen line offset).1 < (lineCount : Int)) ∧
    (place_cursor_at_line_offset lineCount lineLen line offset).2 ≤
      (lineLen (place_cursor_at_line_offset lineCount lineLen line offset).1.toNat : Int) ∧
    (0 ≤ offset →
      validPos lineCount lineLen (place_cursor_at_line_offset lineCount lineLen line offset)) := by
  unfold place_cursor_at_line_offset validPos
  have hc' : (1 : Int) ≤ (lineCount : Int) := by exact_mod_cast hc
  constructor
  · constructor
    · dsimp only
      split <;> omega
    · dsimp only
      split
      · omega
      · have := min_le_right line ((lineCount : Int) - 1)
        omega
  · constructor
    · exact min_le_right _ _
    · intro hoff
      refine ⟨?_, ?_, ?_, ?_⟩
      · dsimp only; split <;> omega
      · dsimp only
        split
        · omega
        · have := min_le_right line ((lineCount : Int) - 1)
          omega
      · exact le_min hoff (by positivity)
      · exact min_le_right _ _

/-- C10 witness: the amended theorem applied at a concrete input (a document
of 1 line of length 5, arguments line = 3, offset = 9). -/
theorem place_cursor_at_line_offset_clamps_witness :
    (0 ≤ (place_cursor_at_line_offset 1 (fun _ => 5) 3 9).1 ∧
      (place_cursor_at_line_offset 1 (fun _ => 5) 3 9).1 < (1 : Int)) ∧
    (place_cursor_at_line_offset 1 (fun _ => 5) 3 9).2 ≤
      ((fun _ => 5) (place_cursor_at_line_offset 1 (fun _ => 5) 3 9).1.toNat : Int) ∧
    (0 ≤ (9 : Int) →
      validPos 1 (fun _ => 5) (place_cursor_at_line_offset 1 (fun _ => 5) 3 9)) :=
  place_cursor_at_line_offset_clamps 1 (fun _ => 5) 3 9 (by decide)

/-! ## C9 -/

theorem cleanupLine_spec (l : List Char) :
    ∃ w, l = cleanupLine l ++ w ∧ w.all isWS ∧
      ∀ h : cleanupLine l ≠ [], isWS ((cleanupLine l).getLast h) = false := by
  refine ⟨(l.reverse.takeWhile isWS).reverse, ?_, ?_, ?_⟩
  · conv_lhs => rw [← l.reverse_reverse,
      ← List.takeWhile_append_dropWhile (p := isWS) (l := l.reverse)]
    rw [List.reverse_append]
    rfl
  · rw [List.all_eq_true]
    intro c hc
    exact List.mem_takeWhile_imp (List.mem_reverse.mp hc)
  · intro h
    unfold cleanupLine at h ⊢
    rw [List.getLast_reverse]
    have hne : l.reverse.dropWhile isWS ≠ [] := by
      intro hcon; rw [hcon] at h; exact h rfl
    have := List.head_dropWhile_not isWS l.reverse hne
    simpa using this

/-- C9: on every buffer, `cleanup_whitespace_characters` erases on each line
exactly the trailing run of spaces and tabs (each original line is its
cleaned form followed by an all-whitespace run, and no cleaned line ends in
whitespace); it appends exactly one final newline when the resulting last
line is nonempty; and `save` with the cleanup option enabled writes the
cleaned buffer, so saving can mutate the buffer in exactly this way. -/
theorem cleanup_whitespace_characters_spec (lines : List (List Char)) :
    (∀ l ∈ lines, ∃ w, l = cleanupLine l ++ w ∧ w.all isWS ∧
      ∀ h : cleanupLine l ≠ [], isWS ((cleanupLine l).getLast h) = false) ∧
    cleanup_whitespace_characters lines =
      (if (lines.map cleanupLine).getLast?.getD [] = []
        then lines.map cleanupLine
        else lines.map cleanupLine ++ [[]]) ∧
    saveBuffer true lines = cleanup_whitespace_characters lines :=
  ⟨fun l _ => cleanupLine_spec l, rfl, rfl⟩

/-- C9 witness: the theorem applied to the concrete two-line buffer
["a ", "b\t"]; the first line's existential is extracted and the buffer
equation evaluated. -/
theorem cleanup_whitespace_characters_spec_witness :
    (∃ w, ['a', ' '] = cleanupLine ['a', ' '] ++ w ∧ w.all isWS ∧
      ∀ h : cleanupLine ['a', ' '] ≠ [], isWS ((cleanupLine ['a', ' ']).getLast h) = false) ∧
    cleanup_whitespace_characters [['a', ' '], ['b', '\t']] = [['a'], ['b'], []] := by
  have h := cleanup_whitespace_characters_spec [['a', ' '], ['b', '\t']]
  refine ⟨h.1 ['a', ' '] (by simp), ?_⟩
  rw [h.2.1]
  decide

/-! ## C1 -/

theorem scanFrom_self (t : List Char) (ctx : Nat → Ctx) (p : Nat) (s : PBState) :
    scanFrom t ctx p p s = scanStep t ctx p s := by
  unfold scanFrom
  rw [Nat.sub_self]
  rfl

theorem scanFrom_eq_step_of_lt (t : List Char) (ctx : Nat → Ctx) {p0 q : Nat}
    (s : PBState) (h : q < p0) :
    scanFrom t ctx p0 q s = scanStep t ctx q (scanFrom t ctx p0 (q + 1) s) := by
  unfold scanFrom
  have h2 : p0 - q = (p0 - (q + 1)) + 1 := by omega
  rw [h2]
  rfl

theorem scanFrom_shift_aux (t : List Char) (ctx : Nat → Ctx) (q : Nat) (s : PBState) :
    ∀ n j, j ≤ q → q - j = n →
      scanFrom t ctx (q + 1) j s = scanFrom t ctx q j (scanStep t ctx (q + 1) s) := by
  intro n
  induction n with
  | zero =>
    intro j hj hn
    have hjq : j = q := by omega
    subst hjq
    rw [scanFrom_eq_step_of_lt t ctx s (by omega), scanFrom_self, scanFrom_self]
  | succ n ih =>
    intro j hj hn
    have hjq : j < q := by omega
    rw [scanFrom_eq_step_of_lt t ctx s (by omega),
      scanFrom_eq_step_of_lt t ctx (scanStep t ctx (q + 1) s) hjq,
      ih (j + 1) (by omega) (by omega)]

theorem scanFrom_shift (t : List Char) (ctx : Nat → Ctx) (q : Nat) (s : PBState) :
    ∀ j, j ≤ q →
      scanFrom t ctx (q + 1) j s = scanFrom t ctx q j (scanStep t ctx (q + 1) s) :=
  fun j hj => scanFrom_shift_aux t ctx q s (q - j) j hj rfl

theorem findClosedExprAux_spec (t : List Char) (ctx : Nat → Ctx) :
    ∀ (q : Nat) (s : PBState),
      (findClosedExprAux t ctx q s = none → ∀ j, j ≤ q → ¬ goodAt t ctx q j s) ∧
      (∀ r, findClosedExprAux t ctx q s = some r →
        r ≤ q ∧ goodAt t ctx q r s ∧ ∀ j, r < j → j ≤ q → ¬ goodAt t ctx q j s) := by
  intro q
  induction q with
  | zero =>
    intro s
    constructor
    · intro hnone j hj
      interval_cases j
      intro hgood
      rw [findClosedExprAux] at hnone
      simp only [goodAt, scanFrom_self] at hgood
      rw [if_pos hgood] at hnone
      exact Option.some_ne_none 0 hnone
    · intro r hsome
      rw [findClosedExprAux] at hsome
      by_cases hcond : startsLine t 0 ∧ (scanStep t ctx 0 s).count1 ≤ 0 ∧
          (scanStep t ctx 0 s).count2 ≤ 0
      · rw [if_pos hcond] at hsome
        obtain rfl : r = 0 := (Option.some_inj.mp hsome).symm
        refine ⟨le_refl 0, ?_, ?_⟩
        · simpa only [goodAt, scanFrom_self] using hcond
        · intro j hj hj'
          omega
      · rw [if_neg hcond] at hsome
        exact absurd hsome (Option.some_ne_none r).symm
  | succ q ih =>
    intro s
    have hunf : findClosedExprAux t ctx (q + 1) s =
        if startsLine t (q + 1) ∧ (scanStep t ctx (q + 1) s).count1 ≤ 0 ∧
            (scanStep t ctx (q + 1) s).count2 ≤ 0
          then some (q + 1)
          else findClosedExprAux t ctx q (scanStep t ctx (q + 1) s) := by
      rw [findClosedExprAux]
    have hgood_top : goodAt t ctx (q + 1) (q + 1) s ↔
        (startsLine t (q + 1) ∧ (scanStep t ctx (q + 1) s).count1 ≤ 0 ∧
          (scanStep t ctx (q + 1) s).count2 ≤ 0) := by
      unfold goodAt
      rw [scanFrom_self]
    have hgood_shift : ∀ j, j ≤ q →
        (goodAt t ctx (q + 1) j s ↔ goodAt t ctx q j (scanStep t ctx (q + 1) s)) := by
      intro j hj
      unfold goodAt
      rw [scanFrom_shift t ctx q s j hj]
    constructor
    · intro hnone j hj
      rw [hunf] at hnone
      by_cases hcond : startsLine t (q + 1) ∧ (scanStep t ctx (q + 1) s).count1 ≤ 0 ∧
          (scanStep t ctx (q + 1) s).count2 ≤ 0
      · rw [if_pos hcond] at hnone
        exact absurd hnone (Option.some_ne_none _)
      · rw [if_neg hcond] at hnone
        rcases Nat.lt_or_ge j (q + 1) with hlt | hge
        · have hjq : j ≤ q := by omega
          rw [hgood_shift j hjq]
          exact (ih (scanStep t ctx (q + 1) s)).1 hnone j hjq
        · have hjq : j = q + 1 := by omega
          subst hjq
          rw [hgood_top]
          exact hcond
    · intro r hsome
      rw [hunf] at hsome
      by_cases hcond : startsLine t (q + 1) ∧ (scanStep t ctx (q + 1) s).count1 ≤ 0 ∧
          (scanStep t ctx (q + 1) s).count2 ≤ 0
      · rw [if_pos hcond] at hsome
        obtain rfl : r = q + 1 := (Option.some_inj.mp hsome).symm
        refine ⟨le_refl _, hgood_top.mpr hcond, ?_⟩
        intro j hj hj'
        omega
      · rw [if_neg hcond] at hsome
        obtain ⟨hr, hgood, hfirst⟩ := (ih (scanStep t ctx (q + 1) s)).2 r hsome
        refine ⟨by omega, (hgood_shift r hr).mpr hgood, ?_⟩
        intro j hj hj'
        rcases Nat.lt_or_ge j (q + 1) with hlt | hge
        · have hjq : j ≤ q := by omega
          rw [hgood_shift j hjq]
          exact hfirst j hj hjq
        · have hjq : j = q + 1 := by omega
          subst hjq
          rw [hgood_top]
          exact hcond

/-- C1 counterexample: on the buffer "\ta" (all positions plain), scanning
backward from the end with tab character '\t' and the cursor at offset 2,
`find_start_of_closed_expression` returns offset 1, which does not start a
line at all; the qualifying line start (offset 0, where both counters are 0)
is not what is returned, because the found iterator is advanced over the
leading tab characters before being handed back. -/
theorem find_start_returns_non_line_start :
    find_start_of_closed_expression ['\t', 'a'] (fun _ => Ctx.plain) '\t' 2 2 = some 1 ∧
    closedAt ['\t', 'a'] (fun _ => Ctx.plain) 2 0 ∧
    ¬ startsLine ['\t', 'a'] 1 := by
  decide

/-- C1 (amended): for every buffer, context oracle and starting position,
the backward scan of `find_start_of_closed_expression` stops at the first
line-start position (in scan order) at which both bracket-balance counters
are ≤ 0 — no position scanned earlier satisfies the condition — and returns
that stop position advanced forward over leading `tab_char` characters up to
the cursor position; when the scan exhausts the buffer without finding such
a position it returns a not-found result (`none`) rather than raising. -/
theorem find_start_of_closed_expression_spec (t : List Char) (ctx : Nat → Ctx)
    (tabChar : Char) (insertPos p0 : Nat) :
    (find_start_of_closed_expression t ctx tabChar insertPos p0 = none →
      ∀ q, q ≤ p0 → ¬ closedAt t ctx p0 q) ∧
    (∀ r, find_start_of_closed_expression t ctx tabChar insertPos p0 = some r →
      ∃ s, s ≤ p0 ∧ closedAt t ctx p0 s ∧
        (∀ q, s < q → q ≤ p0 → ¬ closedAt t ctx p0 q) ∧
        r = skipTabChars t tabChar insertPos s) := by
  unfold find_start_of_closed_expression closedAt
  constructor
  · intro hnone q hq
    rw [Option.map_eq_none'] at hnone
    exact (findClosedExprAux_spec t ctx p0 PBState.init).1 hnone q hq
  · intro r hsome
    rw [Option.map_eq_some'] at hsome
    obtain ⟨s, hs, hr⟩ := hsome
    obtain ⟨hle, hgood, hfirst⟩ := (findClosedExprAux_spec t ctx p0 PBState.init).2 s hs
    exact ⟨s, hle, hgood, hfirst, hr.symm⟩

/-- C1 witness: the amended theorem applied to the concrete buffer "\ta"
scanned from its end; the some-branch yields the stop position 0 and the
returned, tab-adjusted position 1. -/
theorem find_start_of_closed_expression_spec_witness :
    ∃ s, s ≤ 2 ∧ closedAt ['\t', 'a'] (fun _ => Ctx.plain) 2 s ∧
      (∀ q, s < q → q ≤ 2 → ¬ closedAt ['\t', 'a'] (fun _ => Ctx.plain) 2 q) ∧
      1 = skipTabChars ['\t', 'a'] '\t' 2 s :=
  (find_start_of_closed_expression_spec ['\t', 'a'] (fun _ => Ctx.plain) '\t' 2 2).2
    1 (by decide)

/-! ## C2 -/

/-- C2 counterexample: on the two-character buffer "\'" (a backslash then a
single quote, all positions plain), the quote at offset 1 is escaped in the
claim's sense — the immediately preceding character is a backslash not
itself preceded by a backslash — yet the scan step toggles the char-literal
ignore flag from false to true, because the degenerate `backward_char` at
the buffer start re-reads the backslash as its own predecessor. -/
theorem scanStep_toggles_on_escaped_quote_at_buffer_start :
    escapedSpec ['\\', '\''] 1 ∧
    (scanStep ['\\', '\''] (fun _ => Ctx.plain) 1 PBState.init).ignore = true ∧
    PBState.init.ignore = false := by
  decide

/-- C2 (amended): in the shared per-character step of all four structural
scans, a character whose lexical context is comment or string never changes
any bracket counter; a plain single quote toggles the char-literal ignore
flag if and only if it is not escaped in the clamped-iterator sense — the
character at the truncated offset p-1 is a backslash and the one at the
truncated offset p-2 is not (so a quote at offset 1 over a backslash still
toggles); and while the ignore flag is set, no character changes any
counter. -/
theorem scan_steps_ignore_rules (t : List Char) (ctx : Nat → Ctx) (p : Nat)
    (s : PBState) (b : BrState) (inc dec : Char) :
    (ctx p ≠ Ctx.plain →
      (scanStep t ctx p s).count1 = s.count1 ∧ (scanStep t ctx p s).count2 = s.count2 ∧
      (braceStep inc dec t ctx p b).count = b.count) ∧
    (s.ignore = true →
      (scanStep t ctx p s).count1 = s.count1 ∧ (scanStep t ctx p s).count2 = s.count2) ∧
    (b.ignore = true → (braceStep inc dec t ctx p b).count = b.count) ∧
    ((scanStep t ctx p s).ignore =
      if ctx p = Ctx.plain ∧ charAt t p = '\'' ∧
          ¬(charAt t (p - 1) = '\\' ∧ charAt t (p - 2) ≠ '\\')
        then !s.ignore else s.ignore) ∧
    ((braceStep inc dec t ctx p b).ignore =
      if ctx p = Ctx.plain ∧ charAt t p = '\'' ∧
          ¬(charAt t (p - 1) = '\\' ∧ charAt t (p - 2) ≠ '\\')
        then !b.ignore else b.ignore) := by
  have hiff : quoteToggles t p = true ↔
      ¬(charAt t (p - 1) = '\\' ∧ charAt t (p - 2) ≠ '\\') := by
    unfold quoteToggles
    simp only [Bool.or_eq_true, decide_eq_true_eq, ne_eq, decide_not,
      Bool.not_eq_true', decide_eq_false_iff_not]
    tauto
  refine ⟨?_, ?_, ?_, ?_, ?_⟩
  · intro hctx
    unfold scanStep braceStep
    rw [if_neg hctx, if_neg hctx]
    exact ⟨rfl, rfl, rfl⟩
  · intro hig
    unfold scanStep
    split_ifs <;> simp_all
  · intro hig
    unfold braceStep
    split_ifs <;> simp_all
  · unfold scanStep
    by_cases hctx : ctx p = Ctx.plain
    · by_cases hq : charAt t p = '\''
      · by_cases htog : quoteToggles t p = true
        · rw [if_pos hctx, if_pos hq, if_pos htog, if_pos ⟨hctx, hq, hiff.mp htog⟩]
        · have hesc : charAt t (p - 1) = '\\' ∧ charAt t (p - 2) ≠ '\\' := by
            by_contra hcon
            exact htog (hiff.mpr hcon)
          rw [if_pos hctx, if_pos hq, if_neg htog, if_neg (fun hcon => hcon.2.2 hesc)]
      · have hrhs : (if ctx p = Ctx.plain ∧ charAt t p = '\'' ∧
              ¬(charAt t (p - 1) = '\\' ∧ charAt t (p - 2) ≠ '\\')
            then !s.ignore else s.ignore) = s.ignore :=
          if_neg (fun hcon => hq hcon.2.1)
        rw [hrhs, if_pos hctx, if_neg hq]
        split_ifs <;> rfl
    · have hrhs : (if ctx p = Ctx.plain ∧ charAt t p = '\'' ∧
            ¬(charAt t (p - 1) = '\\' ∧ charAt t (p - 2) ≠ '\\')
          then !s.ignore else s.ignore) = s.ignore :=
        if_neg (fun hcon => hctx hcon.1)
      rw [hrhs, if_neg hctx]
  · unfold braceStep
    by_cases hctx : ctx p = Ctx.plain
    · by_cases hq : charAt t p = '\''
      · by_cases htog : quoteToggles t p = true
        · rw [if_pos hctx, if_pos hq, if_pos htog, if_pos ⟨hctx, hq, hiff.mp htog⟩]
        · have hesc : charAt t (p - 1) = '\\' ∧ charAt t (p - 2) ≠ '\\' := by
            by_contra hcon
            exact htog (hiff.mpr hcon)
          rw [if_pos hctx, if_pos hq, if_neg htog, if_neg (fun hcon => hcon.2.2 hesc)]
      · have hrhs : (if ctx p = Ctx.plain ∧ charAt t p = '\'' ∧
              ¬(charAt t (p - 1) = '\\' ∧ charAt t (p - 2) ≠ '\\')
            then !b.ignore else b.ignore) = b.ignore :=
          if_neg (fun hcon => hq hcon.2.1)
        rw [hrhs, if_pos hctx, if_neg hq]
        split_ifs <;> rfl
    · have hrhs : (if ctx p = Ctx.plain ∧ charAt t p = '\'' ∧
            ¬(charAt t (p - 1) = '\\' ∧ charAt t (p - 2) ≠ '\\')
          then !b.ignore else b.ignore) = b.ignore :=
        if_neg (fun hcon => hctx hcon.1)
      rw [hrhs, if_neg hctx]

/-! ## C8 -/

theorem takeWhile_length_le (p : Char → Bool) (l : List Char) :
    (l.takeWhile p).length ≤ l.length := by
  induction l with
  | nil => simp
  | cons c cs ih =>
    by_cases h : p c
    · simp only [List.takeWhile_cons, h, if_true, List.length_cons]
      omega
    · simp [List.takeWhile_cons, h]

theorem lineBefore_length_le (t : List Char) (p : Nat) :
    (lineBefore t p).length ≤ p := by
  unfold lineBefore
  rw [List.length_reverse]
  calc ((t.take p).reverse.takeWhile (fun c => c ≠ '\n')).length
      ≤ (t.take p).reverse.length := takeWhile_length_le _ _
    _ ≤ p := by rw [List.length_reverse, List.length_take]; omega

/-- C8 counterexample: on the buffer "x\n   " with the cursor at its end
(3 spaces before the cursor on its line), the Backspace keystroke nets the
buffer "x": the smart erase removes the 3 spaces and the fall-through to the
default view handler then erases the newline as well, so the net change is
not just the removal of the whitespace characters (which would give
"x\n"). -/
theorem smart_backspace_erases_beyond_run :
    smart_backspace "x\n   ".toList 5 = ("x".toList, 1) ∧
    ("x".toList : List Char) ≠ "x\n".toList := by
  decide

/-- C8 (amended): when every character between the line start and the cursor
is whitespace, the handler erases that entire run with one single contiguous
erase inside the keystroke's single user action (first conjunct: the result
is the one-step removal of [lineStart, p) followed by the default handler),
and the keystroke's net change is the removal of the run plus the default
backspace of the single character preceding the line (the newline joining it
to the previous line), or the run alone when the line is the first line. -/
theorem smart_backspace_spec (t : List Char) (p : Nat) (hp : p ≤ t.length)
    (hws : (lineBefore t p).all isWS) :
    (0 < (lineBefore t p).length →
      smart_backspace t p =
        defaultBackspace (t.take (lineStart t p) ++ t.drop p) (lineStart t p)) ∧
    smart_backspace t p =
      (if lineStart t p = 0 then (t.drop p, 0)
        else (t.take (lineStart t p - 1) ++ t.drop p, lineStart t p - 1)) := by
  have hn : (lineBefore t p).length ≤ p := lineBefore_length_le t p
  constructor
  · intro h0
    unfold smart_backspace
    rw [if_pos hws, if_pos h0]
    rfl
  · unfold smart_backspace lineStart
    rw [if_pos hws]
    by_cases h0 : 0 < (lineBefore t p).length
    · rw [if_pos h0]
      unfold defaultBackspace eraseRange
      by_cases hls : p - (lineBefore t p).length = 0
      · rw [hls]
        simp
      · have hlt : 0 < p - (lineBefore t p).length := by omega
        rw [if_pos hlt, if_neg hls]
        have hlen : (t.take (p - (lineBefore t p).length)).length =
            p - (lineBefore t p).length := by
          rw [List.length_take]; omega
        congr 1
        rw [List.take_append_of_le_length (by omega),
          List.drop_append_of_le_length (by omega),
          List.take_take, min_eq_left (by omega),
          List.drop_eq_nil_of_le (by omega), List.nil_append]
    · have h0' : (lineBefore t p).length = 0 := by omega
      rw [if_neg h0]
      unfold defaultBackspace eraseRange
      rw [h0', Nat.sub_zero]
      by_cases hp0 : p = 0
      · rw [hp0]
        simp
      · rw [if_pos (by omega), if_neg hp0]

/-- C8 witness: the amended theorem applied to the concrete buffer "x\n   "
with the cursor at offset 5 (3 spaces of whitespace before it). -/
theorem smart_backspace_spec_witness :
    (0 < (lineBefore "x\n   ".toList 5).length →
      smart_backspace "x\n   ".toList 5 =
        defaultBackspace ("x\n   ".toList.take (lineStart "x\n   ".toList 5) ++
          "x\n   ".toList.drop 5) (lineStart "x\n   ".toList 5)) ∧
    smart_backspace "x\n   ".toList 5 =
      (if lineStart "x\n   ".toList 5 = 0 then ("x\n   ".toList.drop 5, 0)
        else ("x\n   ".toList.take (lineStart "x\n   ".toList 5 - 1) ++
          "x\n   ".toList.drop 5, lineStart "x\n   ".toList 5 - 1)) :=
  smart_backspace_spec "x\n   ".toList 5 (by decide) (by decide)

/-! ## C4 -/

/-- C4 counterexample: with tab TabStyle ('\t'), no selection, and the cursor
after the 2 tabs of the line "\t\t", pasting "a\n\tb\n\tc" yields the buffer
"\t\ta\n\t\tb\n\t\tc" (the stripped lines get the 2-tab destination indent,
i.e. 2 tabs before b and c), not the claimed "\t\ta\n\t\t\tb\n\t\t\tc" with
3 tabs before b and c. -/
theorem paste_example_not_three_tabs :
    paste '\t' false "\t\t".toList 2 "a\n\tb\n\tc".toList =
      some ("\t\ta\n\t\tb\n\t\tc".toList, 11) ∧
    ("\t\ta\n\t\tb\n\t\tc".toList : List Char) ≠ "\t\ta\n\t\t\tb\n\t\t\tc".toList := by
  decide

/-- C4 (amended): with tab TabStyle, no selection, and the cursor on a line
of exactly 2 tabs (cursor after them), pasting "a\n\tb\n\tc" yields the
buffer content "a\n\t\tb\n\t\tc" at the paste site: the common indent of 1
tab is stripped from lines 2-3 and the destination indentation of 2 tabs is
prefixed to lines 2-3, while the first line is inserted without a
destination-indentation prefix. -/
theorem paste_example_result :
    paste '\t' false "\t\t".toList 2 "a\n\tb\n\tc".toList =
      some (("\t\t".toList.take 2) ++ "a\n\t\tb\n\t\tc".toList ++
        ("\t\t".toList.drop 2), 11) := by
  decide

/-! ## C6 -/

theorem takeWhile_drop_nil (t : List Char) (p : Nat) (h : isWS (charAt t p) = false) :
    (t.drop p).takeWhile isWS = [] := by
  cases hd : t.drop p with
  | nil => rfl
  | cons c rest =>
    have hp : p < t.length := by
      by_contra hcon
      rw [List.drop_eq_nil_of_le (by omega)] at hd
      exact List.noConfusion hd
    have hc : charAt t p = c := by
      have h2 := List.drop_eq_getElem_cons hp
      rw [hd] at h2
      have h3 : t[p] = c := ((List.cons.injEq _ _ _ _).mp h2.symm).1
      unfold charAt
      rw [List.getD_eq_getElem?_getD, List.getElem?_eq_getElem hp, Option.getD_some, h3]
    rw [List.takeWhile_cons, ← hc, h]
    simp

theorem lt_length_of_charAt_ne (t : List Char) (p : Nat)
    (h : charAt t p ≠ Char.ofNat 0) : p < t.length := by
  by_contra hcon
  unfold charAt at h
  rw [List.getD_eq_default _ _ (by omega)] at h
  exact h rfl

theorem removeBlanks_id (t : List Char) (cur : Nat)
    (h1 : ¬ startsLine t cur)
    (hprev : isWS (charAt t (cur - 1)) = false)
    (hprevNL : charAt t (cur - 1) ≠ '\n')
    (hprevLT : cur - 1 < t.length)
    (hcur : isWS (charAt t cur) = false) :
    removeBlanksAroundCursor t cur = (t, cur) := by
  have hend : blanksEnd t cur = cur := by
    unfold blanksEnd
    rw [takeWhile_drop_nil t cur hcur]
    rfl
  have hstart : blanksStart t cur = cur - 1 := by
    obtain ⟨k, rfl⟩ : ∃ k, cur = k + 1 :=
      ⟨cur - 1, by
        rcases Nat.eq_zero_or_pos cur with h0 | h0
        · exact absurd (Or.inl h0) h1
        · omega⟩
    unfold blanksStart
    show blanksStartAux t (k + 1) k = k
    rw [blanksStartAux]
    rw [if_neg]
    rintro ⟨hor, -⟩
    rcases hor with hws | hel
    · rw [show charAt t k = charAt t (k + 1 - 1) from rfl, hprev] at hws
      exact Bool.false_ne_true hws
    · apply absurd hel
      unfold endsLine
      push_neg
      constructor
      · omega
      · exact hprevNL
  unfold removeBlanksAroundCursor
  rw [hstart, hend]
  by_cases hsl : startsLine t (cur - 1)
  · rw [if_neg (not_not_intro hsl)]
    unfold eraseRange
    rw [List.take_append_drop]
  · rw [if_pos hsl]
    unfold eraseRange
    have hc1 : cur - 1 + 1 = cur := by
      rcases Nat.eq_zero_or_pos cur with h0 | h0
      · exact absurd (Or.inl h0) h1
      · omega
    rw [hc1, List.take_append_drop]

theorem take_length_takeWhile (q : Char → Bool) (l : List Char) :
    l.take ((l.takeWhile q).length) = l.takeWhile q := by
  induction l with
  | nil => rfl
  | cons a l ih =>
    rw [List.takeWhile_cons]
    by_cases h : q a
    · rw [if_pos h]
      simp only [List.length_cons, List.take_succ_cons, ih]
    · rw [if_neg h]
      rfl

theorem takeWhile_append_all (p : Char → Bool) (xs ys : List Char)
    (h : ∀ x ∈ xs, p x = true) :
    (xs ++ ys).takeWhile p = xs ++ ys.takeWhile p := by
  induction xs with
  | nil => rfl
  | cons a l ih =>
    rw [List.cons_append, List.takeWhile_cons, if_pos (h a (List.mem_cons_self a l)),
      ih (fun x hx => h x (List.mem_cons_of_mem a hx)), List.cons_append]

theorem lineIndent_mem_ws (t : List Char) (st : Nat) :
    ∀ x ∈ lineIndent t st, isWS x = true := by
  intro x hx
  unfold lineIndent tabsRun at hx
  rw [take_length_takeWhile] at hx
  exact List.mem_takeWhile_imp hx

/-- C6: in a bracket language, pressing Enter with the cursor immediately
after `{` and the next character being `}` (both in plain context so the
bracket handler is active), provided the enclosing-statement scan succeeds,
inserts newline + (statement indentation + one TabStyle unit) + newline +
(statement indentation) at the cursor: the original line keeps its text up
to the `{`, a blank line indented one unit beyond the enclosing statement
follows, and the `}` continues after the inserted statement indentation on a
third line; the cursor lands at the end of the blank indented middle line
(it has exactly that indentation before it). -/
theorem bracket_enter_between_braces (ctx : Nat → Ctx) (tc : Char) (ts : Nat)
    (t : List Char) (cur st : Nat)
    (htc : tc = ' ' ∨ tc = '\t')
    (h1 : ¬ startsLine t cur)
    (h2 : charAt t (cur - 1) = '{')
    (h3 : charAt t cur = '}')
    (h4 : find_start_of_closed_expression t ctx tc cur cur = some st) :
    on_key_press_enter_bracket ctx tc ts t cur =
      some (t.take cur ++ ('\n' :: (lineIndent t st ++ List.replicate ts tc)) ++
          ('\n' :: lineIndent t st) ++ t.drop cur,
        cur + 1 + (lineIndent t st).length + ts) ∧
    lineBefore (t.take cur ++ ('\n' :: (lineIndent t st ++ List.replicate ts tc)) ++
        ('\n' :: lineIndent t st) ++ t.drop cur)
      (cur + 1 + (lineIndent t st).length + ts) =
      lineIndent t st ++ List.replicate ts tc := by
  have hcur0 : cur ≠ 0 := fun hcon => h1 (Or.inl hcon)
  have hcurlt : cur < t.length := by
    apply lt_length_of_charAt_ne t cur
    rw [h3]
    decide
  have hrm : removeBlanksAroundCursor t cur = (t, cur) := by
    apply removeBlanks_id t cur h1
    · rw [h2]; decide
    · rw [h2]; decide
    · apply lt_length_of_charAt_ne t (cur - 1)
      rw [h2]
      decide
    · rw [h3]; decide
  constructor
  · unfold on_key_press_enter_bracket
    rw [if_neg h1, hrm]
    unfold bracketEnterCore
    rw [h4]
    dsimp only
    rw [if_pos ⟨hcur0, h2⟩, if_pos h3]
  · have hA : (t.take cur).length = cur := by
      rw [List.length_take]
      omega
    have hB : ('\n' :: (lineIndent t st ++ List.replicate ts tc)).length =
        1 + (lineIndent t st).length + ts := by
      simp [List.length_replicate]
      omega
    have hnotNL : ∀ x ∈ ((lineIndent t st ++ List.replicate ts tc)).reverse,
        (fun c => decide (c ≠ '\n')) x = true := by
      intro x hx
      rw [List.mem_reverse] at hx
      rcases List.mem_append.mp hx with hxI | hxT
      · have hws := lineIndent_mem_ws t st x hxI
        unfold isWS at hws
        simp only [Bool.or_eq_true, decide_eq_true_eq] at hws
        rcases hws with rfl | rfl <;> decide
      · have := List.eq_of_mem_replicate hxT
        subst this
        rcases htc with rfl | rfl <;> decide
    have hsplit : cur + 1 + (lineIndent t st).length + ts =
        (t.take cur).length + (1 + (lineIndent t st).length + ts) := by
      omega
    have htake : (t.take cur ++ ('\n' :: (lineIndent t st ++ List.replicate ts tc)) ++
        ('\n' :: lineIndent t st) ++ t.drop cur).take
          (cur + 1 + (lineIndent t st).length + ts) =
        t.take cur ++ ('\n' :: (lineIndent t st ++ List.replicate ts tc)) := by
      rw [List.append_assoc, List.append_assoc, hsplit, List.take_append, ← hB,
        List.take_left]
    unfold lineBefore
    rw [htake, List.reverse_append, List.reverse_cons, List.append_assoc,
      List.singleton_append, takeWhile_append_all _ _ _ hnotNL,
      List.takeWhile_cons]
    simp

/-- C6 witness: the theorem applied to the concrete buffer "if (x) {}" with
the cursor between the braces, tab TabStyle of width 1: the result is the
three-line buffer "if (x) {", "\t", "}" with the cursor at the end of the
blank indented line (offset 10). -/
theorem bracket_enter_between_braces_witness :
    on_key_press_enter_bracket (fun _ => Ctx.plain) '\t' 1 "if (x) \x7b\x7d".toList 8 =
      some ("if (x) \x7b\n\t\n\x7d".toList, 10) := by
  have h := bracket_enter_between_braces (fun _ => Ctx.plain) '\t' 1
    "if (x) \x7b\x7d".toList 8 0 (Or.inr rfl) (by decide) (by decide) (by decide)
    (by decide)
  rw [h.1]
  decide

/-! ## C7 -/

theorem foldl_min_le (xs : List Nat) :
    ∀ a : Nat, xs.foldl min a ≤ a ∧ ∀ x ∈ xs, xs.foldl min a ≤ x := by
  induction xs with
  | nil =>
    intro a
    exact ⟨le_refl a, by simp⟩
  | cons x xs ih =>
    intro a
    rw [List.foldl_cons]
    obtain ⟨h1, h2⟩ := ih (min a x)
    refine ⟨le_trans h1 (min_le_left a x), ?_⟩
    intro y hy
    rcases List.mem_cons.mp hy with rfl | hy'
    · exact le_trans h1 (min_le_right a y)
    · exact h2 y hy'

theorem foldl_min_const (xs : List Nat) :
    ∀ a : Nat, (∀ x ∈ xs, x = a) → xs.foldl min a = a := by
  induction xs with
  | nil =>
    intro a _
    rfl
  | cons x xs ih =>
    intro a h
    rw [List.foldl_cons, h x (List.mem_cons_self x xs), min_self]
    exact ih a (fun y hy => h y (List.mem_cons_of_mem x hy))

theorem take_ws_of_le_takeWhile (l : List Char) (m : Nat)
    (hm : m ≤ (l.takeWhile isWS).length) : ∀ c ∈ l.take m, isWS c = true := by
  intro c hc
  have h1 : l.take m = (l.takeWhile isWS).take m := by
    conv_lhs => rw [← List.takeWhile_append_dropWhile (p := isWS) (l := l)]
    rw [List.take_append_of_le_length hm]
  rw [h1] at hc
  exact List.mem_takeWhile_imp (List.mem_of_mem_take hc)

theorem lineInfo_eq_some (pfx l : List Char) (c e : Bool) (ind : Nat)
    (h : lineInfo pfx l = some (c, e, ind)) :
    ind = (l.takeWhile isWS).length ∧ l.drop ((l.takeWhile isWS).length) ≠ [] ∧
      c = (decide (pfx ≠ []) &&
        decide ((l.drop ((l.takeWhile isWS).length)).take pfx.length = pfx)) ∧
      e = (c && decide (((l.drop ((l.takeWhile isWS).length)).drop pfx.length).head? =
        some ' ')) := by
  unfold lineInfo at h
  dsimp only at h
  cases hr : l.drop ((l.takeWhile isWS).length) with
  | nil =>
    rw [hr] at h
    exact absurd h (by simp)
  | cons a rest =>
    rw [hr] at h
    simp only [Option.some_inj, Prod.mk.injEq] at h
    obtain ⟨hc, he, hind⟩ := h
    refine ⟨hind.symm, List.cons_ne_nil a rest, ?_, ?_⟩
    · exact hc.symm
    · rw [← hc]
      exact he.symm

theorem lineInfo_isSome_iff (pfx l : List Char) :
    (lineInfo pfx l).isSome = true ↔ l.drop ((l.takeWhile isWS).length) ≠ [] := by
  unfold lineInfo
  dsimp only
  cases hr : l.drop ((l.takeWhile isWS).length) with
  | nil => simp
  | cons a rest => simp

theorem drop_length_takeWhile (q : Char → Bool) (l : List Char) :
    l.drop ((l.takeWhile q).length) = l.dropWhile q := by
  induction l with
  | nil => rfl
  | cons a l ih =>
    rw [List.takeWhile_cons, List.dropWhile_cons]
    by_cases h : q a
    · rw [if_pos h, if_pos h]
      simpa using ih
    · rw [if_neg h, if_neg h]
      rfl

theorem dropWhile_head_false (q : Char → Bool) (l : List Char) (a : Char)
    (R : List Char) (h : l.dropWhile q = a :: R) : q a = false := by
  induction l with
  | nil => exact absurd h (by simp)
  | cons b l ih =>
    rw [List.dropWhile_cons] at h
    by_cases hb : q b
    · rw [if_pos hb] at h
      exact ih h
    · rw [if_neg hb] at h
      have hba : b = a := ((List.cons.injEq _ _ _ _).mp h).1
      rw [← hba]
      rwa [Bool.not_eq_true] at hb

theorem slide_lands_on_indentation (l : List Char) (m : Nat)
    (hm : m ≤ (l.takeWhile isWS).length)
    (hne : l.drop ((l.takeWhile isWS).length) ≠ []) :
    ((l.drop m).takeWhile isWS).length = (l.takeWhile isWS).length - m := by
  have hWR : l.takeWhile isWS ++ l.dropWhile isWS = l :=
    List.takeWhile_append_dropWhile isWS l
  have hRne : l.dropWhile isWS ≠ [] := by
    rw [← drop_length_takeWhile isWS l]
    exact hne
  have hdropm : l.drop m = (l.takeWhile isWS).drop m ++ l.dropWhile isWS := by
    conv_lhs => rw [← hWR]
    rw [List.drop_append_of_le_length hm]
  cases hR : l.dropWhile isWS with
  | nil => exact absurd hR hRne
  | cons r0 R =>
    have hr0 : isWS r0 = false := dropWhile_head_false isWS l r0 R hR
    rw [hdropm, hR, takeWhile_append_all isWS _ _
        (fun x hx => List.mem_takeWhile_imp (List.mem_of_mem_drop hx)),
      List.takeWhile_cons, hr0]
    simp [List.length_drop]

theorem lineInfo_eval (pfx l : List Char) (a : Char) (rest : List Char)
    (h : l.drop ((l.takeWhile isWS).length) = a :: rest) :
    lineInfo pfx l = some
      (decide (pfx ≠ []) && decide ((a :: rest).take pfx.length = pfx),
       (decide (pfx ≠ []) && decide ((a :: rest).take pfx.length = pfx)) &&
         decide (((a :: rest).drop pfx.length).head? = some ' '),
       (l.takeWhile isWS).length) := by
  unfold lineInfo
  dsimp only
  rw [h]

theorem lineInfo_insert (pfx l : List Char) (m : Nat)
    (hp1 : pfx ≠ []) (hp2 : ∀ c ∈ pfx, isWS c = false)
    (hm : m ≤ (l.takeWhile isWS).length) :
    lineInfo pfx (l.take m ++ (pfx ++ (' ' :: l.drop m))) = some (true, true, m) := by
  have hml : m ≤ l.length := le_trans hm (takeWhile_length_le isWS l)
  have hA : (l.take m).length = m := by
    rw [List.length_take]
    omega
  obtain ⟨p0, pfx', rfl⟩ : ∃ p0 pfx', pfx = p0 :: pfx' := by
    cases pfx with
    | nil => exact absurd rfl hp1
    | cons a b => exact ⟨a, b, rfl⟩
  have hp0 : isWS p0 = false := hp2 p0 (List.mem_cons_self p0 pfx')
  have htw : ((l.take m ++ ((p0 :: pfx') ++ (' ' :: l.drop m))).takeWhile isWS) =
      l.take m := by
    rw [takeWhile_append_all isWS _ _ (take_ws_of_le_takeWhile l m hm),
      List.cons_append, List.takeWhile_cons, hp0]
    simp
  have hscrut : (l.take m ++ ((p0 :: pfx') ++ (' ' :: l.drop m))).drop
      (((l.take m ++ ((p0 :: pfx') ++ (' ' :: l.drop m))).takeWhile isWS).length) =
      p0 :: (pfx' ++ (' ' :: l.drop m)) := by
    rw [htw, hA, List.drop_left' hA, List.cons_append]
  rw [lineInfo_eval _ _ _ _ hscrut]
  have htk : (p0 :: (pfx' ++ (' ' :: l.drop m))).take (p0 :: pfx').length =
      p0 :: pfx' := by
    rw [List.length_cons, List.take_succ_cons, List.take_left]
  have hdp : (p0 :: (pfx' ++ (' ' :: l.drop m))).drop (p0 :: pfx').length =
      ' ' :: l.drop m := by
    rw [List.length_cons, List.drop_succ_cons, List.drop_left]
  rw [htk, hdp, htw, hA]
  simp

theorem toggleLineEdit_inverse (pfx l : List Char) (aE : Bool) (m : Nat)
    (hp1 : pfx ≠ []) (hp2 : ∀ c ∈ pfx, isWS c = false)
    (hm : m ≤ (l.takeWhile isWS).length) :
    toggleLineEdit pfx true true m (toggleLineEdit pfx false aE m l) = l := by
  have hml : m ≤ l.length := le_trans hm (takeWhile_length_le isWS l)
  have hA : (l.take m).length = m := by
    rw [List.length_take]
    omega
  obtain ⟨p0, pfx', rfl⟩ : ∃ p0 pfx', pfx = p0 :: pfx' := by
    cases pfx with
    | nil => exact absurd rfl hp1
    | cons a b => exact ⟨a, b, rfl⟩
  have hp0 : isWS p0 = false := hp2 p0 (List.mem_cons_self p0 pfx')
  have hinner : toggleLineEdit (p0 :: pfx') false aE m l =
      l.take m ++ ((p0 :: pfx') ++ (' ' :: l.drop m)) := by
    unfold toggleLineEdit
    rw [if_neg (by simp)]
  rw [hinner]
  unfold toggleLineEdit
  rw [if_pos rfl]
  have hdr : (l.take m ++ ((p0 :: pfx') ++ (' ' :: l.drop m))).drop m =
      (p0 :: pfx') ++ (' ' :: l.drop m) := List.drop_left' hA
  have htw0 : (((p0 :: pfx') ++ (' ' :: l.drop m)).takeWhile isWS) = [] := by
    rw [List.cons_append, List.takeWhile_cons, hp0]
    simp
  rw [hdr, htw0]
  have htk : (l.take m ++ ((p0 :: pfx') ++ (' ' :: l.drop m))).take
      (m + ([] : List Char).length) = l.take m := by
    rw [show m + ([] : List Char).length = m from rfl]
    exact List.take_left' hA
  have hdr2 : (l.take m ++ ((p0 :: pfx') ++ (' ' :: l.drop m))).drop
      (m + ([] : List Char).length + (p0 :: pfx').length +
        (if (true : Bool) = true then 1 else 0)) = l.drop m := by
    have harith : m + ([] : List Char).length + (p0 :: pfx').length +
        (if (true : Bool) = true then 1 else 0) =
        (l.take m).length + ((p0 :: pfx').length + 1) := by
      rw [hA]
      simp
      omega
    rw [harith, ← List.append_assoc, show (l.take m).length + ((p0 :: pfx').length + 1) =
      ((l.take m).length + (p0 :: pfx').length) + 1 from by omega,
      show (l.take m).length + (p0 :: pfx').length =
        (l.take m ++ (p0 :: pfx')).length from (List.length_append _ _).symm,
      List.drop_append 1]
    rfl
  rw [htk, hdr2, List.take_append_drop]

theorem toggleLineEdit_erase_eq (pfx l : List Char) (aE : Bool) (m : Nat)
    (hm : m ≤ (l.takeWhile isWS).length)
    (hne : l.drop ((l.takeWhile isWS).length) ≠ []) :
    toggleLineEdit pfx true aE m l =
      l.take ((l.takeWhile isWS).length) ++
        l.drop ((l.takeWhile isWS).length + pfx.length + (if aE then 1 else 0)) := by
  unfold toggleLineEdit
  rw [if_pos rfl, slide_lands_on_indentation l m hm hne]
  have h1 : m + ((l.takeWhile isWS).length - m) = (l.takeWhile isWS).length := by
    omega
  rw [h1]

theorem mem_countedIdx_iff (pfx : List Char) (lines : List (List Char)) (ls le i : Nat) :
    i ∈ countedIdx pfx lines ls le ↔
      ls ≤ i ∧ i ≤ le ∧ (lineInfo pfx (lines.getD i [])).isSome = true := by
  unfold countedIdx
  rw [List.mem_filter, List.mem_range'_1]
  constructor
  · rintro ⟨⟨h1, h2⟩, h3⟩
    exact ⟨h1, by omega, h3⟩
  · rintro ⟨h1, h2, h3⟩
    exact ⟨⟨h1, by omega⟩, h3⟩

theorem minIndentation_le (pfx : List Char) (L : List (List Char)) (ls le i : Nat)
    (hi : i ∈ countedIdx pfx L ls le) :
    minIndentation pfx L ls le ≤ (infoOf pfx L i).2.2 := by
  unfold minIndentation
  cases hcc : countedIdx pfx L ls le with
  | nil =>
    rw [hcc] at hi
    exact absurd hi (List.not_mem_nil i)
  | cons c0 cs =>
    rw [hcc] at hi
    rw [List.map_cons]
    dsimp only
    rcases List.mem_cons.mp hi with rfl | hi'
    · exact (foldl_min_le _ _).1
    · exact (foldl_min_le _ _).2 _ (List.mem_map_of_mem _ hi')

theorem minIndentation_eq_of_const (pfx : List Char) (L : List (List Char))
    (ls le m0 : Nat) (hne : countedIdx pfx L ls le ≠ [])
    (h : ∀ i ∈ countedIdx pfx L ls le, (infoOf pfx L i).2.2 = m0) :
    minIndentation pfx L ls le = m0 := by
  unfold minIndentation
  cases hcc : countedIdx pfx L ls le with
  | nil => exact absurd hcc hne
  | cons c0 cs =>
    rw [List.map_cons]
    dsimp only
    have hc0 : (infoOf pfx L c0).2.2 = m0 :=
      h c0 (by rw [hcc]; exact List.mem_cons_self _ _)
    rw [hc0]
    apply foldl_min_const
    intro x hx
    obtain ⟨a, ha, rfl⟩ := List.mem_map.mp hx
    exact h a (by rw [hcc]; exact List.mem_cons_of_mem _ ha)

theorem toggleApplyAux_length (pfx : List Char) (aC aE : Bool) (m ls le : Nat) :
    ∀ (L : List (List Char)) (i : Nat),
      (toggleApplyAux pfx aC aE m ls le i L).length = L.length := by
  intro L
  induction L with
  | nil =>
    intro i
    rfl
  | cons l rest ih =>
    intro i
    simp only [toggleApplyAux, List.length_cons, ih]

theorem toggleApplyAux_getD (pfx : List Char) (aC aE : Bool) (m ls le : Nat) :
    ∀ (L : List (List Char)) (i j : Nat),
      (toggleApplyAux pfx aC aE m ls le i L).getD j [] =
        if ls ≤ i + j ∧ i + j ≤ le ∧ (lineInfo pfx (L.getD j [])).isSome = true then
          toggleLineEdit pfx aC aE m (L.getD j [])
        else L.getD j [] := by
  intro L
  induction L with
  | nil =>
    intro i j
    have hnone : lineInfo pfx ([] : List Char) = none := rfl
    simp [toggleApplyAux, hnone]
  | cons l rest ih =>
    intro i j
    cases j with
    | zero =>
      simp only [toggleApplyAux, List.getD_cons_zero, Nat.add_zero]
    | succ j =>
      simp only [toggleApplyAux, List.getD_cons_succ]
      rw [ih (i + 1) j]
      have harith : i + 1 + j = i + (j + 1) := by omega
      rw [harith]

theorem list_ext_getD {α : Type} (d : α) :
    ∀ (L1 L2 : List α), L1.length = L2.length →
      (∀ j, L1.getD j d = L2.getD j d) → L1 = L2 := by
  intro L1
  induction L1 with
  | nil =>
    intro L2 hlen _
    cases L2 with
    | nil => rfl
    | cons b N => exact absurd hlen (by simp)
  | cons a M ih =>
    intro L2 hlen h
    cases L2 with
    | nil => exact absurd hlen (by simp)
    | cons b N =>
      have h0 := h 0
      simp only [List.getD_cons_zero] at h0
      rw [h0]
      congr 1
      refine ih N (by simpa using hlen) (fun j => ?_)
      have hj := h (j + 1)
      simpa only [List.getD_cons_succ] using hj

/-- C7 (counterexample): toggling comments twice does not restore an
all-commented range: on the single line "//" the first toggle removes the
marker leaving an empty line, which the second toggle ignores (no counted
lines), so the range ends empty rather than restored — a difference beyond
one space after the prefix, since the prefix itself is gone. -/
theorem toggle_comments_twice_not_restoring :
    toggle_comments ['/', '/'] 0 0 (toggle_comments ['/', '/'] 0 0 [['/', '/']]) =
      [[]] ∧ ([[]] : List (List Char)) ≠ [['/', '/']] := by
  constructor
  · decide
  · decide

/-- C7 (amended): when some line of the range counts (is not
whitespace-only), toggle_comments preserves the number of lines and leaves
uncounted lines unchanged; each counted line is rewritten as follows: when
every counted line carries the prefix, the prefix (plus one following space
if every counted line had one) is removed at that line's own indentation,
otherwise prefix plus one space is inserted at the minimum indentation
column of the counted lines.  When not every counted line carries the
prefix, applying toggle_comments twice restores the buffer exactly; an
initially all-commented range need not round-trip (see the counterexample:
a marker-only line becomes empty and is then ignored). -/
theorem toggle_comments_spec (pfx : List Char) (lines : List (List Char)) (ls le : Nat)
    (hp1 : pfx ≠ []) (hp2 : ∀ c ∈ pfx, isWS c = false)
    (hcounted : countedIdx pfx lines ls le ≠ []) :
    (toggle_comments pfx ls le lines).length = lines.length ∧
    (∀ i, i ∉ countedIdx pfx lines ls le →
      (toggle_comments pfx ls le lines).getD i [] = lines.getD i []) ∧
    (∀ i, i ∈ countedIdx pfx lines ls le →
      (toggle_comments pfx ls le lines).getD i [] =
        (if linesCommented pfx lines ls le then
          (lines.getD i []).take (((lines.getD i []).takeWhile isWS).length) ++
            (lines.getD i []).drop (((lines.getD i []).takeWhile isWS).length +
              pfx.length + (if extraSpaces pfx lines ls le then 1 else 0))
        else
          (lines.getD i []).take (minIndentation pfx lines ls le) ++
            (pfx ++ (' ' :: (lines.getD i []).drop
              (minIndentation pfx lines ls le))))) ∧
    (linesCommented pfx lines ls le = false →
      toggle_comments pfx ls le (toggle_comments pfx ls le lines) = lines) := by
  have hT : toggle_comments pfx ls le lines =
      toggleApplyAux pfx (linesCommented pfx lines ls le)
        (extraSpaces pfx lines ls le) (minIndentation pfx lines ls le) ls le
        0 lines := by
    unfold toggle_comments
    rw [if_neg hcounted]
  have hmle : ∀ i, i ∈ countedIdx pfx lines ls le →
      minIndentation pfx lines ls le ≤
        ((lines.getD i []).takeWhile isWS).length := by
    intro i hi
    have h1 := minIndentation_le pfx lines ls le i hi
    obtain ⟨h1', h2', h3'⟩ := (mem_countedIdx_iff pfx lines ls le i).mp hi
    obtain ⟨⟨c, e, ind⟩, hsome⟩ := Option.isSome_iff_exists.mp h3'
    have hind := (lineInfo_eq_some pfx _ c e ind hsome).1
    unfold infoOf at h1
    rw [hsome] at h1
    simp only [Option.getD_some] at h1
    rw [← hind]
    exact h1
  have hins : ∀ l : List Char,
      toggleLineEdit pfx false (extraSpaces pfx lines ls le)
        (minIndentation pfx lines ls le) l =
      l.take (minIndentation pfx lines ls le) ++
        (pfx ++ (' ' :: l.drop (minIndentation pfx lines ls le))) := by
    intro l
    unfold toggleLineEdit
    rw [if_neg (by simp)]
  refine ⟨?_, ?_, ?_, ?_⟩
  · rw [hT, toggleApplyAux_length]
  · intro i hi
    rw [hT, toggleApplyAux_getD]
    rw [if_neg]
    rintro ⟨h1, h2, h3⟩
    exact hi ((mem_countedIdx_iff pfx lines ls le i).mpr ⟨by omega, by omega, h3⟩)
  · intro i hi
    obtain ⟨h1, h2, h3⟩ := (mem_countedIdx_iff pfx lines ls le i).mp hi
    rw [hT, toggleApplyAux_getD, if_pos ⟨by omega, by omega, h3⟩]
    cases haC : linesCommented pfx lines ls le with
    | false =>
      rw [hins]
      simp
    | true =>
      have hne := (lineInfo_isSome_iff pfx _).mp h3
      rw [toggleLineEdit_erase_eq pfx _ _ _ (hmle i hi) hne]
      simp
  · intro haC
    have hgetD : ∀ j, (toggle_comments pfx ls le lines).getD j [] =
        if ls ≤ j ∧ j ≤ le ∧ (lineInfo pfx (lines.getD j [])).isSome = true then
          (lines.getD j []).take (minIndentation pfx lines ls le) ++
            (pfx ++ (' ' :: (lines.getD j []).drop
              (minIndentation pfx lines ls le)))
        else lines.getD j [] := by
      intro j
      rw [hT, haC, toggleApplyAux_getD]
      by_cases hc : ls ≤ j ∧ j ≤ le ∧
          (lineInfo pfx (lines.getD j [])).isSome = true
      · rw [if_pos ⟨by omega, by omega, hc.2.2⟩, if_pos hc, hins]
      · rw [if_neg ?_, if_neg hc]
        rintro ⟨ha, hb, hcc⟩
        exact hc ⟨by omega, by omega, hcc⟩
    have hsomePres : ∀ j,
        (lineInfo pfx ((toggle_comments pfx ls le lines).getD j [])).isSome =
          (lineInfo pfx (lines.getD j [])).isSome := by
      intro j
      rw [hgetD j]
      by_cases hc : ls ≤ j ∧ j ≤ le ∧
          (lineInfo pfx (lines.getD j [])).isSome = true
      · rw [if_pos hc,
          lineInfo_insert pfx _ _ hp1 hp2
            (hmle j ((mem_countedIdx_iff pfx lines ls le j).mpr hc))]
        rw [hc.2.2]
        rfl
      · rw [if_neg hc]
    have hcEq : countedIdx pfx (toggle_comments pfx ls le lines) ls le =
        countedIdx pfx lines ls le := by
      unfold countedIdx
      apply List.filter_congr
      intro i _hi
      exact hsomePres i
    have hinfo : ∀ i ∈ countedIdx pfx lines ls le,
        lineInfo pfx ((toggle_comments pfx ls le lines).getD i []) =
          some (true, true, minIndentation pfx lines ls le) := by
      intro i hi
      obtain ⟨h1, h2, h3⟩ := (mem_countedIdx_iff pfx lines ls le i).mp hi
      rw [hgetD i, if_pos ⟨h1, h2, h3⟩]
      exact lineInfo_insert pfx _ _ hp1 hp2 (hmle i hi)
    have haC' : linesCommented pfx (toggle_comments pfx ls le lines) ls le =
        true := by
      unfold linesCommented
      rw [hcEq, List.all_eq_true]
      intro i hi
      unfold infoOf
      rw [hinfo i hi]
      rfl
    have haE' : extraSpaces pfx (toggle_comments pfx ls le lines) ls le =
        true := by
      unfold extraSpaces
      rw [hcEq, List.all_eq_true]
      intro i hi
      unfold infoOf
      rw [hinfo i hi]
      rfl
    have hm' : minIndentation pfx (toggle_comments pfx ls le lines) ls le =
        minIndentation pfx lines ls le := by
      apply minIndentation_eq_of_const
      · rw [hcEq]
        exact hcounted
      · intro i hi
        rw [hcEq] at hi
        unfold infoOf
        rw [hinfo i hi]
        rfl
    have hlen1 : (toggle_comments pfx ls le lines).length = lines.length := by
      rw [hT, toggleApplyAux_length]
    have hstep : toggle_comments pfx ls le (toggle_comments pfx ls le lines) =
        toggleApplyAux pfx true true (minIndentation pfx lines ls le) ls le 0
          (toggle_comments pfx ls le lines) := by
      conv_lhs => rw [toggle_comments]
      rw [if_neg (by rw [hcEq]; exact hcounted), haC', haE', hm']
    rw [hstep]
    apply list_ext_getD ([] : List Char)
    · rw [toggleApplyAux_length, hlen1]
    · intro j
      rw [toggleApplyAux_getD]
      by_cases hc : ls ≤ j ∧ j ≤ le ∧
          (lineInfo pfx (lines.getD j [])).isSome = true
      · have hc2 : (lineInfo pfx
            ((toggle_comments pfx ls le lines).getD j [])).isSome = true := by
          rw [hsomePres j]
          exact hc.2.2
        rw [if_pos ⟨by omega, by omega, hc2⟩, hgetD j, if_pos hc, ← hins]
        exact toggleLineEdit_inverse pfx _ _ _ hp1 hp2
          (hmle j ((mem_countedIdx_iff pfx lines ls le j).mpr hc))
      · rw [if_neg ?_, hgetD j, if_neg hc]
        rintro ⟨ha, hb, hcc⟩
        rw [hsomePres j] at hcc
        exact hc ⟨by omega, by omega, hcc⟩

/-- C7 witness: on the single uncommented line "a", toggling twice with
prefix "//" restores the line exactly. -/
theorem toggle_comments_spec_witness :
    toggle_comments ['/', '/'] 0 0 (toggle_comments ['/', '/'] 0 0 [['a']]) =
      [['a']] :=
  (toggle_comments_spec ['/', '/'] [['a']] 0 0 (by decide) (by decide)
    (by decide)).2.2.2 (by decide)

/-! ## C3 -/

theorem selectFold_spec (l : List (Nat × Nat)) :
    ∀ acc : Nat × Nat,
      (l.foldl (fun best kv => if kv.2 > best.2 then kv else best) acc ∈ acc :: l) ∧
      (∀ kv ∈ l,
        kv.2 ≤ (l.foldl (fun best kv => if kv.2 > best.2 then kv else best) acc).2) ∧
      acc.2 ≤ (l.foldl (fun best kv => if kv.2 > best.2 then kv else best) acc).2 := by
  induction l with
  | nil =>
    intro acc
    exact ⟨List.mem_cons_self _ _, by simp, le_refl _⟩
  | cons kv l ih =>
    intro acc
    simp only [List.foldl_cons]
    by_cases h : kv.2 > acc.2
    · rw [if_pos h]
      obtain ⟨hmem, hmax, hacc⟩ := ih kv
      refine ⟨?_, ?_, ?_⟩
      · exact List.mem_cons_of_mem acc hmem
      · intro kv' hkv'
        rcases List.mem_cons.mp hkv' with heq' | h'
        · rw [heq']
          exact hacc
        · exact hmax kv' h'
      · exact le_trans (le_of_lt h) hacc
    · rw [if_neg h]
      obtain ⟨hmem, hmax, hacc⟩ := ih acc
      refine ⟨?_, ?_, ?_⟩
      · rcases List.mem_cons.mp hmem with heq | hmem'
        · rw [heq]
          exact List.mem_cons_self _ _
        · exact List.mem_cons_of_mem acc (List.mem_cons_of_mem kv hmem')
      · intro kv' hkv'
        rcases List.mem_cons.mp hkv' with heq' | h'
        · rw [heq']
          omega
        · exact hmax kv' h'
      · exact hacc

/-- C3: for every document and both detector modes, `find_tab_char_and_size`
returns, when any indentation data was gathered, an indentation character
whose occurrence count is maximal among the gathered counts, and a delta
width that is a histogram key of maximal count (or the 0 sentinel when the
histogram is empty); when no indentation characters were gathered it returns
the 0 sentinel character, in which case the caller keeps the configured
default tab character and size unchanged. -/
theorem find_tab_char_and_size_spec (isBracketLang : Bool) (t : List Char)
    (autoDetect : Bool) (defC : Char) (defS : Nat) :
    ((tabStats isBracketLang t).1 = 0 ∧ (tabStats isBracketLang t).2.1 = 0 →
      (find_tab_char_and_size isBracketLang t).1 = Char.ofNat 0) ∧
    ((find_tab_char_and_size isBracketLang t).1 ≠ Char.ofNat 0 →
      ((find_tab_char_and_size isBracketLang t).1 = ' ' ∧
        (tabStats isBracketLang t).2.1 ≤ (tabStats isBracketLang t).1 ∧
        0 < (tabStats isBracketLang t).1) ∨
      ((find_tab_char_and_size isBracketLang t).1 = '\t' ∧
        (tabStats isBracketLang t).1 ≤ (tabStats isBracketLang t).2.1 ∧
        0 < (tabStats isBracketLang t).2.1)) ∧
    (∃ v, (((find_tab_char_and_size isBracketLang t).2, v) ∈
          (tabStats isBracketLang t).2.2 ∨
        ((find_tab_char_and_size isBracketLang t).2 = 0 ∧ v = 0)) ∧
      ∀ kv ∈ (tabStats isBracketLang t).2.2, kv.2 ≤ v) ∧
    ((find_tab_char_and_size isBracketLang t).1 = Char.ofNat 0 →
      applyDetectedTabStyle autoDetect defC defS
        (find_tab_char_and_size isBracketLang t) = (defC, defS)) := by
  refine ⟨?_, ?_, ?_, ?_⟩
  · rintro ⟨h1, h2⟩
    show selectTabChar (tabStats isBracketLang t).1 (tabStats isBracketLang t).2.1 =
      Char.ofNat 0
    rw [h1, h2]
    rfl
  · intro hne
    have hsel : (find_tab_char_and_size isBracketLang t).1 =
        selectTabChar (tabStats isBracketLang t).1 (tabStats isBracketLang t).2.1 := rfl
    rw [hsel] at hne ⊢
    unfold selectTabChar at hne ⊢
    by_cases hpos : (tabStats isBracketLang t).1 > 0 ∨ (tabStats isBracketLang t).2.1 > 0
    · rw [if_pos hpos] at hne ⊢
      by_cases htb : (tabStats isBracketLang t).2.1 > (tabStats isBracketLang t).1
      · rw [if_pos htb] at hne ⊢
        right
        exact ⟨rfl, by omega, by omega⟩
      · rw [if_neg htb] at hne ⊢
        left
        refine ⟨rfl, by omega, ?_⟩
        rcases hpos with h | h
        · exact h
        · omega
    · rw [if_neg hpos] at hne
      exact absurd rfl hne
  · have hsel : (find_tab_char_and_size isBracketLang t).2 =
        selectTabSize (tabStats isBracketLang t).2.2 := rfl
    obtain ⟨hmem, hmax, -⟩ := selectFold_spec (tabStats isBracketLang t).2.2 (0, 0)
    refine ⟨((tabStats isBracketLang t).2.2.foldl
      (fun best kv => if kv.2 > best.2 then kv else best) (0, 0)).2, ?_, hmax⟩
    rcases List.mem_cons.mp hmem with heq | hmem'
    · right
      rw [hsel]
      unfold selectTabSize
      rw [heq]
      exact ⟨rfl, rfl⟩
    · left
      rw [hsel]
      unfold selectTabSize
      exact hmem'
  · intro h0
    unfold applyDetectedTabStyle
    rw [if_neg (fun hcon => hcon.2 h0)]

/-- C3 witness: the theorem applied to the concrete C-style buffer
"if (x) {\n\tfoo();\n}", where the detector gathers one tab occurrence and
one delta of width 1 and so yields (tab, 1); with no data (the empty
buffer) it yields the 0 sentinel and the caller keeps the defaults. -/
theorem find_tab_char_and_size_spec_witness :
    find_tab_char_and_size true "if (x) \x7b\n\tfoo();\n\x7d".toList = ('\t', 1) ∧
    (∃ v, (((find_tab_char_and_size true "if (x) \x7b\n\tfoo();\n\x7d".toList).2, v) ∈
          (tabStats true "if (x) \x7b\n\tfoo();\n\x7d".toList).2.2 ∨
        ((find_tab_char_and_size true "if (x) \x7b\n\tfoo();\n\x7d".toList).2 = 0 ∧
          v = 0)) ∧
      ∀ kv ∈ (tabStats true "if (x) \x7b\n\tfoo();\n\x7d".toList).2.2, kv.2 ≤ v) ∧
    applyDetectedTabStyle true ' ' 4 (find_tab_char_and_size false []) = (' ', 4) :=
  ⟨by decide,
    (find_tab_char_and_size_spec true "if (x) \x7b\n\tfoo();\n\x7d".toList true ' ' 4).2.2.1,
    (find_tab_char_and_size_spec false [] true ' ' 4).2.2.2 (by decide)⟩

/-! ## C5 -/

theorem outdentScan_none_iff (touched : Nat → Bool) (lines : List (List Char)) :
    ∀ (n i acc : Nat),
      (outdentScan touched lines n i acc = none ↔
        ∃ j, i ≤ j ∧ j < i + n ∧ touched j = true ∧ lines.getD j [] ≠ [] ∧
          ((lines.getD j []).takeWhile isWS).length = 0) := by
  intro n
  induction n with
  | zero =>
    intro i acc
    simp only [outdentScan]
    constructor
    · intro h
      exact absurd h (Option.some_ne_none acc)
    · rintro ⟨j, h1, h2, -⟩
      omega
  | succ n ih =>
    intro i acc
    simp only [outdentScan]
    by_cases htouch : touched i = true
    · rw [if_pos htouch]
      by_cases hemp : lines.getD i [] = []
      · rw [if_pos hemp, ih (i + 1) acc]
        constructor
        · rintro ⟨j, h1, h2, h3, h4, h5⟩
          exact ⟨j, by omega, by omega, h3, h4, h5⟩
        · rintro ⟨j, h1, h2, h3, h4, h5⟩
          rcases Nat.eq_or_lt_of_le h1 with rfl | hlt
          · exact absurd hemp h4
          · exact ⟨j, by omega, by omega, h3, h4, h5⟩
      · rw [if_neg hemp]
        by_cases hk : ((lines.getD i []).takeWhile isWS).length = 0
        · rw [if_pos hk]
          constructor
          · intro _
            exact ⟨i, le_refl i, by omega, htouch, hemp, hk⟩
          · intro _
            rfl
        · rw [if_neg hk, ih (i + 1) (min acc ((lines.getD i []).takeWhile isWS).length)]
          constructor
          · rintro ⟨j, h1, h2, h3, h4, h5⟩
            exact ⟨j, by omega, by omega, h3, h4, h5⟩
          · rintro ⟨j, h1, h2, h3, h4, h5⟩
            rcases Nat.eq_or_lt_of_le h1 with rfl | hlt
            · exact absurd h5 hk
            · exact ⟨j, by omega, by omega, h3, h4, h5⟩
    · rw [if_neg htouch, ih (i + 1) acc]
      constructor
      · rintro ⟨j, h1, h2, h3, h4, h5⟩
        exact ⟨j, by omega, by omega, h3, h4, h5⟩
      · rintro ⟨j, h1, h2, h3, h4, h5⟩
        rcases Nat.eq_or_lt_of_le h1 with rfl | hlt
        · exact absurd h3 htouch
        · exact ⟨j, by omega, by omega, h3, h4, h5⟩

theorem outdentScan_some (touched : Nat → Bool) (lines : List (List Char)) :
    ∀ (n i acc K : Nat), outdentScan touched lines n i acc = some K →
      K = (((List.range' i n).filter
          (fun j => touched j && !(lines.getD j []).isEmpty)).map
        (fun j => ((lines.getD j []).takeWhile isWS).length)).foldl min acc := by
  intro n
  induction n with
  | zero =>
    intro i acc K h
    simp only [outdentScan, Option.some_inj] at h
    simp [← h]
  | succ n ih =>
    intro i acc K h
    simp only [outdentScan] at h
    rw [List.range'_succ, List.filter_cons]
    by_cases htouch : touched i = true
    · rw [if_pos htouch] at h
      by_cases hemp : lines.getD i [] = []
      · rw [if_pos hemp] at h
        have hpred : (touched i && !(lines.getD i []).isEmpty) = false := by
          rw [hemp]
          simp
        rw [hpred]
        simp only [Bool.false_eq_true, if_false]
        exact ih (i + 1) acc K h
      · rw [if_neg hemp] at h
        by_cases hk : ((lines.getD i []).takeWhile isWS).length = 0
        · rw [if_pos hk] at h
          exact absurd h (Option.noConfusion)
        · rw [if_neg hk] at h
          have hpred : (touched i && !(lines.getD i []).isEmpty) = true := by
            cases hl : lines.getD i [] with
            | nil => exact absurd hl hemp
            | cons a l =>
              rw [htouch]
              rfl
          rw [hpred]
          simp only [if_true, List.map_cons, List.foldl_cons]
          exact ih (i + 1) (min acc ((lines.getD i []).takeWhile isWS).length) K h
    · rw [if_neg htouch] at h
      rw [Bool.not_eq_true] at htouch
      have hpred : (touched i && !(lines.getD i []).isEmpty) = false := by
        rw [htouch]
        rfl
      rw [hpred]
      simp only [Bool.false_eq_true, if_false]
      exact ih (i + 1) acc K h

theorem outdentApplyAux_length (touched : Nat → Bool) (steps ls le : Nat) :
    ∀ (rest : List (List Char)) (i : Nat),
      (outdentApplyAux touched steps ls le i rest).length = rest.length := by
  intro rest
  induction rest with
  | nil => intro i; rfl
  | cons l rest ih =>
    intro i
    simp only [outdentApplyAux, List.length_cons, ih (i + 1)]

theorem outdentApplyAux_getD (touched : Nat → Bool) (steps ls le : Nat) :
    ∀ (rest : List (List Char)) (i j : Nat), j < rest.length →
      (outdentApplyAux touched steps ls le i rest).getD j [] =
        (if ls ≤ i + j ∧ i + j ≤ le ∧ touched (i + j) = true ∧ rest.getD j [] ≠ []
          then (rest.getD j []).drop steps else rest.getD j []) := by
  intro rest
  induction rest with
  | nil =>
    intro i j h
    simp at h
  | cons l rest ih =>
    intro i j h
    cases j with
    | zero =>
      simp only [outdentApplyAux, List.getD_cons_zero, Nat.add_zero]
    | succ j =>
      simp only [outdentApplyAux, List.getD_cons_succ]
      rw [ih (i + 1) j (by simp only [List.length_cons] at h; omega)]
      have harith : i + 1 + j = i + (j + 1) := by omega
      rw [harith]

/-- C5: for every Shift-Tab outdent over a selected line range [ls, le]: if
any touched non-empty line has zero leading whitespace, the operation aborts
and leaves every line of the buffer unchanged (including a single-line
selection); otherwise every touched non-ignored (nonempty) line loses the
same number of leading characters, the minimum of `tab_size` and the minimum
leading-whitespace run across all touched non-empty lines, and all other
lines are unchanged. -/
theorem shift_tab_outdent_spec (tabSize : Nat) (hasSel : Bool) (ls le colEnd : Nat)
    (lines : List (List Char)) (hls : ls ≤ le) (_hle : le < lines.length) :
    ((∃ j, ls ≤ j ∧ j ≤ le ∧ outdentTouched hasSel le colEnd j = true ∧
        lines.getD j [] ≠ [] ∧ ((lines.getD j []).takeWhile isWS).length = 0) →
      shiftTabOutdent tabSize hasSel ls le colEnd lines = lines) ∧
    (¬(∃ j, ls ≤ j ∧ j ≤ le ∧ outdentTouched hasSel le colEnd j = true ∧
        lines.getD j [] ≠ [] ∧ ((lines.getD j []).takeWhile isWS).length = 0) →
      (shiftTabOutdent tabSize hasSel ls le colEnd lines).length = lines.length ∧
      ∀ j, j < lines.length →
        (shiftTabOutdent tabSize hasSel ls le colEnd lines).getD j [] =
          (if ls ≤ j ∧ j ≤ le ∧ outdentTouched hasSel le colEnd j = true ∧
              lines.getD j [] ≠ []
            then (lines.getD j []).drop
              (outdentStepsSpec tabSize (outdentTouched hasSel le colEnd) lines ls le)
            else lines.getD j [])) := by
  have hrange : ∀ j, (ls ≤ j ∧ j < ls + (le + 1 - ls)) ↔ (ls ≤ j ∧ j ≤ le) := by
    intro j
    omega
  constructor
  · intro hex
    obtain ⟨j, h1, h2, h3, h4, h5⟩ := hex
    have hnone : outdentScan (outdentTouched hasSel le colEnd) lines
        (le + 1 - ls) ls tabSize = none := by
      rw [outdentScan_none_iff]
      exact ⟨j, h1, by omega, h3, h4, h5⟩
    unfold shiftTabOutdent
    rw [hnone]
  · intro hnex
    cases hscan : outdentScan (outdentTouched hasSel le colEnd) lines
        (le + 1 - ls) ls tabSize with
    | none =>
      rw [outdentScan_none_iff] at hscan
      obtain ⟨j, h1, h2, h3, h4, h5⟩ := hscan
      exact absurd ⟨j, h1, by omega, h3, h4, h5⟩ hnex
    | some K =>
      have hK : K = outdentStepsSpec tabSize (outdentTouched hasSel le colEnd)
          lines ls le :=
        outdentScan_some (outdentTouched hasSel le colEnd) lines
          (le + 1 - ls) ls tabSize K hscan
      unfold shiftTabOutdent
      rw [hscan]
      constructor
      · exact outdentApplyAux_length _ _ _ _ lines 0
      · intro j hj
        rw [outdentApplyAux_getD _ _ _ _ lines 0 j hj]
        simp only [Nat.zero_add]
        rw [hK]

/-- C5 witness: the theorem applied to the two-line buffer [" a", "  b"]
fully selected (selection end inside line 1), tab size 2: no touched
nonempty line has zero indentation, so both lines lose
min(2, min(1, 2)) = 1 leading character. -/
theorem shift_tab_outdent_spec_witness :
    ¬(∃ j, 0 ≤ j ∧ j ≤ 1 ∧ outdentTouched true 1 1 j = true ∧
        [[' ', 'a'], [' ', ' ', 'b']].getD j [] ≠ [] ∧
        (([[' ', 'a'], [' ', ' ', 'b']].getD j []).takeWhile isWS).length = 0) ∧
    (shiftTabOutdent 2 true 0 1 1 [[' ', 'a'], [' ', ' ', 'b']]).length = 2 ∧
    shiftTabOutdent 2 true 0 1 1 [[' ', 'a'], [' ', ' ', 'b']] = [['a'], [' ', 'b']] := by
  have hnex : ¬(∃ j, 0 ≤ j ∧ j ≤ 1 ∧ outdentTouched true 1 1 j = true ∧
      [[' ', 'a'], [' ', ' ', 'b']].getD j [] ≠ [] ∧
      (([[' ', 'a'], [' ', ' ', 'b']].getD j []).takeWhile isWS).length = 0) := by
    rintro ⟨j, h1, h2, h3, h4, h5⟩
    interval_cases j <;> revert h5 <;> decide
  have h := (shift_tab_outdent_spec 2 true 0 1 1 [[' ', 'a'], [' ', ' ', 'b']]
    (by decide) (by decide)).2 hnex
  refine ⟨hnex, h.1, ?_⟩
  decide

/-- C2 witness: the amended theorem applied at a concrete input — the buffer
"\'" at position 1 in the plain context, where the comment/string and
ignore-flag hypotheses are discharged on the evaluated step. -/
theorem scan_steps_ignore_rules_witness :
    ((fun _ => Ctx.comment) 0 ≠ Ctx.plain →
      (scanStep ['('] (fun _ => Ctx.comment) 0 PBState.init).count1 = PBState.init.count1 ∧
      (scanStep ['('] (fun _ => Ctx.comment) 0 PBState.init).count2 = PBState.init.count2 ∧
      (braceStep '{' '}' ['('] (fun _ => Ctx.comment) 0 BrState.init).count =
        BrState.init.count) ∧
    (PBState.init.ignore = true →
      (scanStep ['('] (fun _ => Ctx.comment) 0 PBState.init).count1 = PBState.init.count1 ∧
      (scanStep ['('] (fun _ => Ctx.comment) 0 PBState.init).count2 = PBState.init.count2) ∧
    (BrState.init.ignore = true →
      (braceStep '{' '}' ['('] (fun _ => Ctx.comment) 0 BrState.init).count =
        BrState.init.count) ∧
    ((scanStep ['('] (fun _ => Ctx.comment) 0 PBState.init).ignore =
      if (fun _ => Ctx.comment) 0 = Ctx.plain ∧ charAt ['('] 0 = '\'' ∧
          ¬(charAt ['('] (0 - 1) = '\\' ∧ charAt ['('] (0 - 2) ≠ '\\')
        then !PBState.init.ignore else PBState.init.ignore) ∧
    ((braceStep '{' '}' ['('] (fun _ => Ctx.comment) 0 BrState.init).ignore =
      if (fun _ => Ctx.comment) 0 = Ctx.plain ∧ charAt ['('] 0 = '\'' ∧
          ¬(charAt ['('] (0 - 1) = '\\' ∧ charAt ['('] (0 - 2) ≠ '\\')
        then !BrState.init.ignore else BrState.init.ignore) :=
  scan_steps_ignore_rules ['('] (fun _ => Ctx.comment) 0 PBState.init BrState.init '{' '}'

end Jucipp
